import Mathlib

/-!
A verification development for the linking and whole-program emission
pipeline of the GopherJS compiler back end (`compiler/compiler.go`): the
archive format, the cross-package dead-code-elimination worklist, the
interface dispatch tables, deterministic program/package emission, and the
source-map output filter.

Modelling conventions:
* Go byte slices that only ever carry program text (`PkgPath`, `DepId`,
  `BodyCode`, `InitCode`, `GcData`, `FileSet`) are modelled as `String`.
* `SourceMapFilter.Write` operates on raw bytes and is modelled over
  `List Nat`; a Go run-time panic (out-of-range slice) is modelled as
  `none`.
* Loops that are not structurally recursive are translated with an explicit
  fuel argument large enough to be irrelevant (proved where needed), so
  that every definition remains executable by the kernel.
-/

namespace GopherJS

/-- One compiled top-level symbol (`type Decl` in compiler.go). -/
structure Decl where
  Var : String
  BodyCode : String
  InitCode : String
  DceFilters : List String
  DceDeps : List String
deriving DecidableEq, Inhabited

/-- A (package path, local binding name) import pair (`type PkgImport`). -/
structure PkgImport where
  Path : String
  VarName : String
deriving DecidableEq, Inhabited

/-- One compiled package (`type Archive` in compiler.go). -/
structure Archive where
  ImportPath : String
  GcData : String
  Dependencies : List String
  Imports : List PkgImport
  Declarations : List Decl
  Tests : List String
  FileSet : String
deriving DecidableEq, Inhabited

/-! ## Source Map Filter (`SourceMapFilter.Write`, compiler.go:380-411) -/

/-- The mutable position state of a `SourceMapFilter`: the generated line
and column counters. -/
structure SMFState where
  line : Nat
  column : Nat
deriving DecidableEq, Inhabited

/-- The effect of forwarding one byte on the position counters: a newline
byte increments `line` and resets `column`, any other byte increments
`column`. -/
def advanceByte (st : SMFState) (b : Nat) : SMFState :=
  if b = 10 then ⟨st.line + 1, 0⟩ else ⟨st.line, st.column + 1⟩

/-- The inner loop of `SourceMapFilter.Write` (compiler.go:391-400): scan
the forwarded chunk `w` for newline bytes with `bytes.IndexByte`; each
newline increments `line` and resets `column`; the final newline-free run
adds its length to `column`.  The fuel argument makes the recursion
structural; `w.length + 1` always suffices. -/
def smfAdvanceGo : Nat → SMFState → List Nat → SMFState
  | 0, st, _ => st
  | fuel + 1, st, w =>
    match w.findIdx? (· == 10) with
    | none => { st with column := st.column + w.length }
    | some i => smfAdvanceGo fuel ⟨st.line + 1, 0⟩ (w.drop (i + 1))

/-- Position-counter update over a forwarded chunk (compiler.go:391-400). -/
def smfAdvance (st : SMFState) (w : List Nat) : SMFState :=
  smfAdvanceGo (w.length + 1) st w

/-- Big-endian 32-bit read (`binary.BigEndian.Uint32(p[i+1:i+5])`). -/
def beUint32 (l : List Nat) : Nat :=
  l.getD 0 0 * 2 ^ 24 + l.getD 1 0 * 2 ^ 16 + l.getD 2 0 * 2 ^ 8 + l.getD 3 0

/-- `SourceMapFilter.Write` (compiler.go:380-411), modelled as a pure
function.  The underlying writer is modelled as accepting every byte
(`n2 = len(w)`, `err = nil`).  `hasCallback` models `MappingCallback !=
nil`.  The result collects the final position state, the bytes forwarded
to the underlying writer, the mapping-callback invocations
`(generatedLine, generatedColumn, cookie)` in order, and the returned
count `n`.  `none` models the out-of-range slice `p[i+1:i+5]` /
`p[i+5:]` the code performs when a sentinel byte (8, `'\b'`) is not
followed by a full 4-byte cookie within the same call: the filter keeps
no cross-call cookie buffer.  The fuel argument makes the recursion
structural; `p.length + 1` always suffices. -/
def smfWriteGo (hasCallback : Bool) :
    Nat → SMFState → List Nat → Option (SMFState × List Nat × List (Nat × Nat × Nat) × Nat)
  | 0, _, _ => none
  | fuel + 1, st, p =>
    match p.findIdx? (· == 8) with
    | none => some (smfAdvance st p, p, [], p.length)
    | some i =>
      let w := p.take i
      let st' := smfAdvance st w
      if i + 5 ≤ p.length then
        let cookie := beUint32 (p.drop (i + 1))
        let calls := if hasCallback then [(st'.line + 1, st'.column, cookie)] else []
        match smfWriteGo hasCallback fuel st' (p.drop (i + 5)) with
        | none => none
        | some (st'', out, calls', n) => some (st'', w ++ out, calls ++ calls', w.length + 5 + n)
      else none

/-- One call `SourceMapFilter.Write(p)` starting from position state
`st`. -/
def smfWrite (hasCallback : Bool) (st : SMFState) (p : List Nat) :
    Option (SMFState × List Nat × List (Nat × Nat × Nat) × Nat) :=
  smfWriteGo hasCallback (p.length + 1) st p

/-- Modelled from the spec (§4.6): the Source Map Filter contract stated
byte by byte.  Ordinary bytes are forwarded verbatim and advance the
(line, column) counters; a sentinel byte (8) and the following 4 cookie
bytes are consumed without being forwarded and, when a mapping sink is
set, record one invocation `(line + 1, column, bigEndianCookie)` at the
point the sentinel is reached, before scanning continues.  A trailing
sentinel without its full cookie is outside the contract; the scan simply
stops there. -/
def specScan (hasCallback : Bool) :
    SMFState → List Nat → SMFState × List Nat × List (Nat × Nat × Nat)
  | st, [] => (st, [], [])
  | st, b :: rest =>
    if b = 8 then
      match rest with
      | c0 :: c1 :: c2 :: c3 :: rest' =>
        let cookie := c0 * 2 ^ 24 + c1 * 2 ^ 16 + c2 * 2 ^ 8 + c3
        let r := specScan hasCallback st rest'
        (r.1, r.2.1, (if hasCallback then [(st.line + 1, st.column, cookie)] else []) ++ r.2.2)
      | _ => (st, [], [])
    else
      let r := specScan hasCallback (advanceByte st b) rest
      (r.1, b :: r.2.1, r.2.2)

/-- A buffer in which every sentinel byte is immediately followed by its
full 4-byte cookie: ordinary bytes are never the sentinel, and each
sentinel consumes four further bytes. -/
inductive CookieWF : List Nat → Prop
  | nil : CookieWF []
  | ord : ∀ b rest, b ≠ 8 → CookieWF rest → CookieWF (b :: rest)
  | cookie : ∀ c0 c1 c2 c3 rest, CookieWF rest → CookieWF (8 :: c0 :: c1 :: c2 :: c3 :: rest)

theorem cookieWF_cons_ne {b : Nat} {rest : List Nat} (hb : b ≠ 8) :
    CookieWF (b :: rest) ↔ CookieWF rest := by
  constructor
  · intro h
    cases h with
    | ord _ _ _ h' => exact h'
    | cookie _ _ _ _ _ h' => exact absurd rfl hb
  · exact fun h => .ord b rest hb h

theorem cookieWF_cookie_iff (c0 c1 c2 c3 : Nat) (rest : List Nat) :
    CookieWF (8 :: c0 :: c1 :: c2 :: c3 :: rest) ↔ CookieWF rest := by
  constructor
  · intro h
    cases h with
    | ord _ _ hb _ => exact absurd rfl hb
    | cookie _ _ _ _ _ h' => exact h'
  · exact fun h => .cookie _ _ _ _ _ h

theorem cookieWF_short (rest : List Nat) (h : rest.length < 4) :
    ¬ CookieWF (8 :: rest) := by
  intro h'
  cases h' with
  | ord _ _ hb _ => exact hb rfl
  | cookie c0 c1 c2 c3 r _ => simp at h; omega

theorem specScan_nil (cb : Bool) (st : SMFState) : specScan cb st [] = (st, [], []) := rfl

theorem specScan_cons_ne (cb : Bool) (st : SMFState) {b : Nat} (rest : List Nat)
    (hb : b ≠ 8) :
    specScan cb st (b :: rest) =
      ((specScan cb (advanceByte st b) rest).1,
        b :: (specScan cb (advanceByte st b) rest).2.1,
        (specScan cb (advanceByte st b) rest).2.2) := by
  rw [specScan.eq_def]
  dsimp only
  rw [if_neg hb]

theorem specScan_cookie (cb : Bool) (st : SMFState) (c0 c1 c2 c3 : Nat)
    (rest' : List Nat) :
    specScan cb st (8 :: c0 :: c1 :: c2 :: c3 :: rest') =
      ((specScan cb st rest').1, (specScan cb st rest').2.1,
        (if cb then [(st.line + 1, st.column, c0 * 2 ^ 24 + c1 * 2 ^ 16 + c2 * 2 ^ 8 + c3)]
          else []) ++ (specScan cb st rest').2.2) := by
  rw [specScan.eq_def]
  dsimp only
  rw [if_pos rfl]

theorem smfWriteGo_succ_none (cb : Bool) (fuel : Nat) (st : SMFState) (p : List Nat)
    (hidx : p.findIdx? (· == 8) = none) :
    smfWriteGo cb (fuel + 1) st p = some (smfAdvance st p, p, [], p.length) := by
  rw [smfWriteGo.eq_def]
  dsimp only
  rw [hidx]

theorem smfWriteGo_succ_some (cb : Bool) (fuel : Nat) (st : SMFState) (p : List Nat)
    (i : Nat) (hidx : p.findIdx? (· == 8) = some i) :
    smfWriteGo cb (fuel + 1) st p =
      (if i + 5 ≤ p.length then
        match smfWriteGo cb fuel (smfAdvance st (p.take i)) (p.drop (i + 5)) with
        | none => none
        | some (st'', out, calls', n) =>
          some (st'', p.take i ++ out,
            (if cb then
              [((smfAdvance st (p.take i)).line + 1, (smfAdvance st (p.take i)).column,
                beUint32 (p.drop (i + 1)))]
              else []) ++ calls', (p.take i).length + 5 + n)
      else none) := by
  rw [smfWriteGo.eq_def]
  dsimp only
  rw [hidx]

theorem foldl_advanceByte_no_newline (u : List Nat) (hu : ∀ b ∈ u, b ≠ 10) :
    ∀ st : SMFState, u.foldl advanceByte st = ⟨st.line, st.column + u.length⟩ := by
  induction u with
  | nil => intro st; simp
  | cons b u ih =>
    intro st
    have hb : b ≠ 10 := hu b (by simp)
    rw [List.foldl_cons, ih (fun x hx => hu x (by simp [hx]))]
    simp [advanceByte, hb]
    omega

theorem smfAdvanceGo_succ_none (fuel : Nat) (st : SMFState) (w : List Nat)
    (hidx : w.findIdx? (· == 10) = none) :
    smfAdvanceGo (fuel + 1) st w = { st with column := st.column + w.length } := by
  rw [smfAdvanceGo.eq_def]
  dsimp only
  rw [hidx]

theorem smfAdvanceGo_succ_some (fuel : Nat) (st : SMFState) (w : List Nat) (i : Nat)
    (hidx : w.findIdx? (· == 10) = some i) :
    smfAdvanceGo (fuel + 1) st w = smfAdvanceGo fuel ⟨st.line + 1, 0⟩ (w.drop (i + 1)) := by
  rw [smfAdvanceGo.eq_def]
  dsimp only
  rw [hidx]

theorem smfAdvanceGo_eq_foldl (fuel : Nat) :
    ∀ (st : SMFState) (w : List Nat), w.length < fuel →
      smfAdvanceGo fuel st w = w.foldl advanceByte st := by
  induction fuel with
  | zero => intro st w h; omega
  | succ fuel ih =>
    intro st w hlen
    cases hidx : w.findIdx? (· == 10) with
    | none =>
      have hfree : ∀ b ∈ w, b ≠ 10 := by
        intro b hb
        have := (List.findIdx?_eq_none_iff.mp hidx) b hb
        simpa using this
      rw [smfAdvanceGo_succ_none fuel st w hidx, foldl_advanceByte_no_newline w hfree st]
    | some i =>
      obtain ⟨hi, hfi⟩ := List.findIdx?_eq_some_iff_findIdx_eq.mp hidx
      obtain ⟨hwi, hprev⟩ := (List.findIdx_eq hi).mp hfi
      have hwi' : w[i] = 10 := by simpa using hwi
      have hsplit : w = w.take i ++ w[i] :: w.drop (i + 1) := by
        conv_lhs => rw [← List.take_append_drop i w]
        rw [List.drop_eq_getElem_cons hi]
      have htake : ∀ b ∈ w.take i, b ≠ 10 := by
        intro b hb
        obtain ⟨j, hj, hbj⟩ := List.mem_take_iff_getElem.mp hb
        have hj' : j < i := lt_of_lt_of_le hj inf_le_left
        have := hprev j hj'
        rw [← hbj]
        simpa using this
      rw [smfAdvanceGo_succ_some fuel st w i hidx,
        ih ⟨st.line + 1, 0⟩ (w.drop (i + 1)) (by simp only [List.length_drop]; omega)]
      conv_rhs => rw [hsplit]
      rw [List.foldl_append, foldl_advanceByte_no_newline _ htake st, List.foldl_cons, hwi']
      simp [advanceByte]

theorem smfAdvance_eq_foldl (st : SMFState) (w : List Nat) :
    smfAdvance st w = w.foldl advanceByte st :=
  smfAdvanceGo_eq_foldl (w.length + 1) st w (by omega)

theorem specScan_sentinel_free_append (cb : Bool) (u v : List Nat)
    (hu : ∀ b ∈ u, b ≠ 8) :
    ∀ st : SMFState,
      specScan cb st (u ++ v) =
        ((specScan cb (u.foldl advanceByte st) v).1,
          u ++ (specScan cb (u.foldl advanceByte st) v).2.1,
          (specScan cb (u.foldl advanceByte st) v).2.2) := by
  induction u with
  | nil => intro st; simp
  | cons b u ih =>
    intro st
    have hb : b ≠ 8 := hu b (by simp)
    rw [List.cons_append, specScan_cons_ne cb st (u ++ v) hb,
      ih (fun x hx => hu x (by simp [hx]))]
    simp

theorem specScan_sentinel_free (cb : Bool) (p : List Nat) (hp : ∀ b ∈ p, b ≠ 8)
    (st : SMFState) :
    specScan cb st p = (p.foldl advanceByte st, p, []) := by
  have h := specScan_sentinel_free_append cb p [] hp st
  rw [List.append_nil] at h
  rw [h, specScan_nil]
  simp

/-- In a well-formed buffer, the first sentinel occurrence starts a full
sentinel+cookie block and the remainder is well-formed again. -/
theorem cookieWF_first_sentinel {p : List Nat} (hwf : CookieWF p) :
    ∀ i, (hi : i < p.length) → p[i] = 8 → (∀ j, (hj : j < i) → p[j] ≠ 8) →
      ∃ c0 c1 c2 c3 rest', p.drop i = 8 :: c0 :: c1 :: c2 :: c3 :: rest' ∧ CookieWF rest' := by
  induction hwf with
  | nil => intro i hi; simp at hi
  | ord b rest hb hrest ih =>
    intro i hi h8 hprev
    match i with
    | 0 => simp at h8; exact absurd h8 hb
    | i + 1 =>
      have := ih i (by simpa using hi) (by simpa using h8)
        (fun j hj => by simpa using hprev (j + 1) (by omega))
      simpa using this
  | cookie c0 c1 c2 c3 rest hrest ih =>
    intro i hi h8 hprev
    match i with
    | 0 => exact ⟨c0, c1, c2, c3, rest, by simp, hrest⟩
    | i + 1 => exact absurd (by simp) (hprev 0 (by omega))

theorem smfWriteGo_spec (cb : Bool) (fuel : Nat) :
    ∀ (st : SMFState) (p : List Nat), CookieWF p → p.length < fuel →
      smfWriteGo cb fuel st p =
        some ((specScan cb st p).1, (specScan cb st p).2.1, (specScan cb st p).2.2, p.length) := by
  induction fuel with
  | zero => intro st p _ h; omega
  | succ fuel ih =>
    intro st p hwf hlen
    cases hidx : p.findIdx? (· == 8) with
    | none =>
      have hfree : ∀ b ∈ p, b ≠ 8 := by
        intro b hb
        have := (List.findIdx?_eq_none_iff.mp hidx) b hb
        simpa using this
      rw [smfWriteGo_succ_none cb fuel st p hidx, specScan_sentinel_free cb p hfree st,
        smfAdvance_eq_foldl]
    | some i =>
      obtain ⟨hi, hfi⟩ := List.findIdx?_eq_some_iff_findIdx_eq.mp hidx
      obtain ⟨hpi, hprev⟩ := (List.findIdx_eq hi).mp hfi
      have hpi' : p[i] = 8 := by simpa using hpi
      obtain ⟨c0, c1, c2, c3, rest', hdrop, hwf'⟩ :=
        cookieWF_first_sentinel hwf i hi hpi'
          (fun j hj => by have := hprev j hj; simpa using this)
      have hdlen : p.length - i = rest'.length + 5 := by
        have := congrArg List.length hdrop
        simpa using this
      have hlen5 : i + 5 ≤ p.length := by omega
      have htake : ∀ b ∈ p.take i, b ≠ 8 := by
        intro b hb
        obtain ⟨j, hj, hbj⟩ := List.mem_take_iff_getElem.mp hb
        have hj' : j < i := lt_of_lt_of_le hj inf_le_left
        have := hprev j hj'
        rw [← hbj]
        simpa using this
      have hsplit : p = p.take i ++ p.drop i := (List.take_append_drop i p).symm
      have hdrop1 : p.drop (i + 1) = c0 :: c1 :: c2 :: c3 :: rest' := by
        rw [← List.drop_drop, hdrop]
        simp
      have hdrop5 : p.drop (i + 5) = rest' := by
        rw [← List.drop_drop, hdrop]
        simp
      have hrestlen : rest'.length < fuel := by omega
      rw [smfWriteGo_succ_some cb fuel st p i hidx, if_pos hlen5, hdrop5,
        ih (smfAdvance st (p.take i)) rest' hwf' hrestlen]
      have hst' : smfAdvance st (p.take i) = (p.take i).foldl advanceByte st :=
        smfAdvance_eq_foldl st (p.take i)
      conv_rhs => rw [hsplit]
      rw [specScan_sentinel_free_append cb (p.take i) (p.drop i) htake st, hdrop,
        specScan_cookie]
      have hlentake : (p.take i).length = i := by
        simp
        omega
      rw [hdrop1]
      simp only [beUint32, hst']
      simp
      try refine ⟨?_, ?_⟩
      all_goals omega

/-- C3 master equivalence: on a buffer in which every sentinel carries its
full 4-byte cookie, one `SourceMapFilter.Write` call behaves exactly as
the byte-by-byte specification scanner and reports `n = p.length`. -/
theorem smfWrite_eq_specScan (cb : Bool) (st : SMFState) (p : List Nat)
    (hwf : CookieWF p) :
    smfWrite cb st p =
      some ((specScan cb st p).1, (specScan cb st p).2.1, (specScan cb st p).2.2, p.length) :=
  smfWriteGo_spec cb (p.length + 1) st p hwf (by omega)

/-! ## Dead code elimination (`Compiler.WriteProgramCode`, compiler.go:163-202) -/

/-- The object key `string(pkg.ImportPath) + ":" + string(f)`
(compiler.go:174). -/
def declObjectKey (p f : String) : String := p ++ ":" ++ f

/-- `declsByObject[o] = append(declsByObject[o], d)` on an association-list
rendering of the Go map (a fresh key is appended at the end; the map is
only ever queried by key, so entry order is irrelevant). -/
def registerDecl (idx : List (String × List Nat)) (o : String) (i : Nat) :
    List (String × List Nat) :=
  match idx with
  | [] => [(o, [i])]
  | (k, b) :: rest =>
    if k = o then (k, b ++ [i]) :: rest else (k, b) :: registerDecl rest o i

/-- `declsByObject[o]` with its presence bit. -/
def lookupIndex (idx : List (String × List Nat)) (o : String) : Option (List Nat) :=
  match idx with
  | [] => none
  | (k, b) :: rest => if k = o then some b else lookupIndex rest o

/-- `delete(declsByObject, o)`. -/
def eraseIndex (idx : List (String × List Nat)) (o : String) :
    List (String × List Nat) :=
  match idx with
  | [] => []
  | (k, b) :: rest => if k = o then rest else (k, b) :: eraseIndex rest o

def containsKey (idx : List (String × List Nat)) (o : String) : Bool :=
  (lookupIndex idx o).isSome

/-- The linker state during DCE: the `declsByObject` index, every
declaration's current `DceFilters` (indexed by position in the flattened
declaration list), and the `pendingDecls` worklist (of positions). -/
structure DceState where
  index : List (String × List Nat)
  fs : List (List String)
  pending : List Nat
deriving DecidableEq

/-- All declarations of a program, flattened in package order and tagged
with their package's import path (the iteration order of
compiler.go:166-178; the in-place pointer mutation of the Go code becomes
an update of the `fs` table at the declaration's position). -/
def flatDecls (pkgs : List Archive) : List (String × Decl) :=
  pkgs.flatMap fun a => a.Declarations.map fun d => (a.ImportPath, d)

def dPkg (ds : List (String × Decl)) (i : Nat) : String := (ds.getD i default).1

def dFilters (ds : List (String × Decl)) (i : Nat) : List String :=
  (ds.getD i default).2.DceFilters

def dDeps (ds : List (String × Decl)) (i : Nat) : List String :=
  (ds.getD i default).2.DceDeps

/-- The index/worklist construction loop (compiler.go:164-178): a
declaration with empty `DceFilters` is appended to `pendingDecls`; any
other declaration is registered in `declsByObject` under each of its
filters. -/
def initDceAux : List (String × Decl) → Nat → DceState → DceState
  | [], _, s => s
  | (p, d) :: rest, i, s =>
    let s' :=
      if d.DceFilters = [] then { s with pending := s.pending ++ [i] }
      else
        { s with
          index := d.DceFilters.foldl (fun ix f => registerDecl ix (declObjectKey p f) i) s.index }
    initDceAux rest (i + 1) s'

def initDce (ds : List (String × Decl)) : DceState :=
  initDceAux ds 0 ⟨[], ds.map (fun pd => pd.2.DceFilters), []⟩

/-- Swap-removal of the first filter equal to `name` (compiler.go:189-194):
the matched entry is overwritten with the last entry and the slice is
truncated by one; only the first match is removed (`break`). -/
def removeFilterOnce (fs : List String) (nm : String) : List String :=
  match fs.findIdx? (· == nm) with
  | none => fs
  | some i => (fs.set i (fs.getLast?.getD "")).dropLast

/-- `strings.Split` at `':'` on the character list. -/
def splitOnColon (s : List Char) : List (List Char) :=
  match s with
  | [] => [[]]
  | c :: rest =>
    if c = ':' then [] :: splitOnColon rest
    else
      match splitOnColon rest with
      | [] => [[c]]
      | g :: gs => (c :: g) :: gs

/-- `strings.Split(o, ":")[1]` (compiler.go:187).  The code only evaluates
this for keys built by `declObjectKey`, which always contain a colon. -/
def nameOfKey (o : String) : String :=
  match splitOnColon o.data with
  | _ :: second :: _ => ⟨second⟩
  | _ => ""

/-- The bucket-consumption loop (compiler.go:188-199): for each
declaration position in the consumed bucket, swap-remove one occurrence
of the filter name from its current filter set and, when that leaves the
set empty, append it to the worklist. -/
def consumeBucket (nm : String) : List Nat → List (List String) → List Nat →
    List (List String) × List Nat
  | [], fs, pending => (fs, pending)
  | j :: b, fs, pending =>
    let fsj := removeFilterOnce (fs.getD j []) nm
    let fs' := fs.set j fsj
    let pending' := if fsj = [] then pending ++ [j] else pending
    consumeBucket nm b fs' pending'

/-- Processing of one dependency of a popped declaration
(compiler.go:183-200): when the dependency's object key is present in the
index, the key is deleted and its bucket consumed. -/
def processDep (st : DceState) (dep : String) : DceState :=
  match lookupIndex st.index dep with
  | none => st
  | some b =>
    let nm := nameOfKey dep
    let r := consumeBucket nm b st.fs st.pending
    ⟨eraseIndex st.index dep, r.1, r.2⟩

/-- One iteration of the worklist loop (compiler.go:180-201),
parameterized by the worklist discipline `pop`.  The source pops the last
entry (`popBack`). -/
def dceStepWith (pop : List Nat → Option (Nat × List Nat))
    (ds : List (String × Decl)) (st : DceState) : DceState :=
  match pop st.pending with
  | none => st
  | some (d, rest) => (dDeps ds d).foldl processDep ⟨st.index, st.fs, rest⟩

/-- The source's worklist discipline (compiler.go:181-182): take the last
entry of `pendingDecls` and truncate. -/
def popBack (l : List Nat) : Option (Nat × List Nat) :=
  match l.getLast? with
  | none => none
  | some d => some (d, l.dropLast)

/-- An alternative first-in-first-out discipline, used only to state that
the DCE result does not depend on the traversal order. -/
def popFront (l : List Nat) : Option (Nat × List Nat) :=
  match l with
  | [] => none
  | d :: rest => some (d, rest)

/-- `for len(pendingDecls) != 0 { ... }` (compiler.go:180), with fuel. -/
def dceLoopWith (pop : List Nat → Option (Nat × List Nat))
    (ds : List (String × Decl)) : Nat → DceState → DceState
  | 0, st => st
  | fuel + 1, st =>
    if st.pending = [] then st else dceLoopWith pop ds fuel (dceStepWith pop ds st)

/-- The total number of filter occurrences of the program. -/
def totalFilters (ds : List (String × Decl)) : Nat :=
  (ds.map (fun pd => pd.2.DceFilters.length)).sum

/-- Enough fuel for the worklist to drain (proved below). -/
def dceFuel (ds : List (String × Decl)) : Nat :=
  (totalFilters ds + 1) * (totalFilters ds + 1) + ds.length + 1

/-- The whole DCE phase of `Compiler.WriteProgramCode`
(compiler.go:163-202). -/
def runDce (ds : List (String × Decl)) : DceState :=
  dceLoopWith popBack ds (dceFuel ds) (initDce ds)

/-- The DCE phase under the first-in-first-out worklist discipline (claim
apparatus, not source). -/
def runDceFifo (ds : List (String × Decl)) : DceState :=
  dceLoopWith popFront ds (dceFuel ds) (initDce ds)

/-- One unfolding of the order-independent liveness semantics of the
`Filters`/`Deps` relation: `i` qualifies over a set `X` of already-live
declarations when every one of its filters is matched by a dependency of
some declaration in `X` (in particular, a declaration with no filters
always qualifies). -/
def dceLiveF (ds : List (String × Decl)) : (Nat → Prop) →o (Nat → Prop) where
  toFun X i :=
    i < ds.length ∧
      ∀ f ∈ dFilters ds i,
        ∃ j, j < ds.length ∧ X j ∧ declObjectKey (dPkg ds i) f ∈ dDeps ds j
  monotone' X Y hXY i h :=
    ⟨h.1, fun f hf =>
      let ⟨j, hj, hX, hk⟩ := h.2 f hf
      ⟨j, hj, hXY j hX, hk⟩⟩

/-- The order-independent liveness semantics: the least set closed under
`dceLiveF`. -/
def Live (ds : List (String × Decl)) : Nat → Prop :=
  OrderHom.lfp (dceLiveF ds)

theorem Live_intro (ds : List (String × Decl)) (i : Nat) (hi : i < ds.length)
    (h : ∀ f ∈ dFilters ds i,
      ∃ j, j < ds.length ∧ Live ds j ∧ declObjectKey (dPkg ds i) f ∈ dDeps ds j) :
    Live ds i := by
  have hfix := OrderHom.map_lfp (dceLiveF ds)
  have : dceLiveF ds (OrderHom.lfp (dceLiveF ds)) i := ⟨hi, h⟩
  rw [hfix] at this
  exact this

theorem Live_elim {ds : List (String × Decl)} {i : Nat} (h : Live ds i) :
    i < ds.length ∧
      ∀ f ∈ dFilters ds i,
        ∃ j, j < ds.length ∧ Live ds j ∧ declObjectKey (dPkg ds i) f ∈ dDeps ds j := by
  have hfix := OrderHom.map_lfp (dceLiveF ds)
  rw [Live, ← hfix] at h
  exact h

theorem Live_induction (ds : List (String × Decl)) (P : Nat → Prop)
    (h : ∀ i, i < ds.length →
      (∀ f ∈ dFilters ds i,
        ∃ j, j < ds.length ∧ (Live ds j ∧ P j) ∧ declObjectKey (dPkg ds i) f ∈ dDeps ds j) →
      P i) :
    ∀ i, Live ds i → P i := by
  have hle : dceLiveF ds (fun j => Live ds j ∧ P j) ≤ fun j => Live ds j ∧ P j := by
    intro i hFi
    refine ⟨Live_intro ds i hFi.1 (fun f hf => ?_), h i hFi.1 hFi.2⟩
    obtain ⟨j, hj, ⟨hLj, _⟩, hk⟩ := hFi.2 f hf
    exact ⟨j, hj, hLj, hk⟩
  have hlfp := OrderHom.lfp_le (dceLiveF ds) hle
  exact fun i hL => (hlfp i hL).2

/-- One `Deps → Filters` hop, as worded in the claim: a dependency of `i`
names one of the filters guarding `j`. -/
def DepHop (ds : List (String × Decl)) (i j : Nat) : Prop :=
  ∃ f ∈ dFilters ds j, declObjectKey (dPkg ds j) f ∈ dDeps ds i

instance (ds : List (String × Decl)) (i j : Nat) : Decidable (DepHop ds i j) := by
  unfold DepHop
  infer_instance

/-- No colon occurs in any package path or filter name; under this
assumption `strings.Split(o, ":")[1]` recovers the filter name from an
object key. -/
def ColonFree (ds : List (String × Decl)) : Prop :=
  (∀ pd ∈ ds, ':' ∉ pd.1.data) ∧ ∀ pd ∈ ds, ∀ f ∈ pd.2.DceFilters, ':' ∉ f.data

instance (ds : List (String × Decl)) : Decidable (ColonFree ds) := by
  unfold ColonFree
  infer_instance

/-! ### Association-list index lemmas -/

theorem lookupIndex_mem {idx : List (String × List Nat)} {o : String} {b : List Nat}
    (h : lookupIndex idx o = some b) : (o, b) ∈ idx := by
  induction idx with
  | nil => simp [lookupIndex] at h
  | cons kb rest ih =>
    obtain ⟨k, b'⟩ := kb
    rw [lookupIndex] at h
    by_cases hk : k = o
    · rw [if_pos hk] at h
      subst hk
      simp at h
      subst h
      simp
    · rw [if_neg hk] at h
      exact List.mem_cons_of_mem _ (ih h)

theorem mem_lookupIndex_of_nodup {idx : List (String × List Nat)} {o : String}
    {b : List Nat} (hnd : (idx.map Prod.fst).Nodup) (h : (o, b) ∈ idx) :
    lookupIndex idx o = some b := by
  induction idx with
  | nil => simp at h
  | cons kb rest ih =>
    obtain ⟨k, b'⟩ := kb
    simp only [List.map_cons, List.nodup_cons] at hnd
    rw [List.mem_cons] at h
    rw [lookupIndex]
    rcases h with h | h
    · obtain ⟨rfl, rfl⟩ := Prod.mk.injEq .. ▸ h
      simp
    · have hk : k ≠ o := by
        rintro rfl
        exact hnd.1 (List.mem_map.mpr ⟨(k, b), h, rfl⟩)
      rw [if_neg hk]
      exact ih hnd.2 h

theorem eraseIndex_sublist (idx : List (String × List Nat)) (o : String) :
    (eraseIndex idx o).Sublist idx := by
  induction idx with
  | nil => simp [eraseIndex]
  | cons kb rest ih =>
    obtain ⟨k, b⟩ := kb
    rw [eraseIndex]
    by_cases hk : k = o
    · rw [if_pos hk]
      exact List.sublist_cons_self _ _
    · rw [if_neg hk]
      exact ih.cons₂ _

theorem lookupIndex_eraseIndex_ne (idx : List (String × List Nat)) {o k : String}
    (h : k ≠ o) : lookupIndex (eraseIndex idx o) k = lookupIndex idx k := by
  induction idx with
  | nil => simp [eraseIndex]
  | cons kb rest ih =>
    obtain ⟨k', b⟩ := kb
    rw [eraseIndex]
    by_cases hk : k' = o
    · rw [if_pos hk, lookupIndex, if_neg (by rw [hk]; exact fun hh => h hh.symm)]
    · rw [if_neg hk, lookupIndex, lookupIndex]
      by_cases hk2 : k' = k
      · rw [if_pos hk2, if_pos hk2]
      · rw [if_neg hk2, if_neg hk2, ih]

theorem lookupIndex_eraseIndex_self {idx : List (String × List Nat)} {o : String}
    (hnd : (idx.map Prod.fst).Nodup) : lookupIndex (eraseIndex idx o) o = none := by
  induction idx with
  | nil => simp [eraseIndex, lookupIndex]
  | cons kb rest ih =>
    obtain ⟨k, b⟩ := kb
    simp only [List.map_cons, List.nodup_cons] at hnd
    rw [eraseIndex]
    by_cases hk : k = o
    · rw [if_pos hk]
      subst hk
      cases hlk : lookupIndex rest k with
      | none => rfl
      | some b' =>
        exact absurd (List.mem_map.mpr ⟨(k, b'), lookupIndex_mem hlk, rfl⟩) hnd.1
    · rw [if_neg hk, lookupIndex, if_neg hk]
      exact ih hnd.2

theorem eraseIndex_length {idx : List (String × List Nat)} {o : String} {b : List Nat}
    (h : lookupIndex idx o = some b) : (eraseIndex idx o).length + 1 = idx.length := by
  induction idx with
  | nil => simp [lookupIndex] at h
  | cons kb rest ih =>
    obtain ⟨k, b'⟩ := kb
    rw [lookupIndex] at h
    rw [eraseIndex]
    by_cases hk : k = o
    · rw [if_pos hk]
      simp
    · rw [if_neg hk] at h
      rw [if_neg hk]
      simp only [List.length_cons]
      rw [ih h]

theorem containsKey_mono_of_sublist {idx idx' : List (String × List Nat)}
    (hsub : idx'.Sublist idx) (hnd : (idx.map Prod.fst).Nodup) {o : String}
    {b : List Nat} (h : lookupIndex idx' o = some b) : lookupIndex idx o = some b :=
  mem_lookupIndex_of_nodup hnd (hsub.subset (lookupIndex_mem h))

/-- Total bucket length of an index. -/
def sumBuckets (idx : List (String × List Nat)) : Nat :=
  (idx.map (fun kb => kb.2.length)).sum

theorem bucket_length_le_sumBuckets {idx : List (String × List Nat)} {o : String}
    {b : List Nat} (h : (o, b) ∈ idx) : b.length ≤ sumBuckets idx := by
  induction idx with
  | nil => simp at h
  | cons kb rest ih =>
    rw [List.mem_cons] at h
    rcases h with h | h
    · subst h
      simp [sumBuckets]
    · have := ih h
      simp only [sumBuckets, List.map_cons, List.sum_cons] at this ⊢
      omega

theorem sumBuckets_le_of_sublist {idx idx' : List (String × List Nat)}
    (hsub : idx'.Sublist idx) : sumBuckets idx' ≤ sumBuckets idx := by
  unfold sumBuckets
  exact List.Sublist.sum_le_sum (hsub.map _) (by intro x hx; positivity)

/-! ### `getD`/`set` lemmas -/

theorem getD_set_self {α : Type} (l : List α) (i : Nat) (a d : α) (h : i < l.length) :
    (l.set i a).getD i d = a := by
  rw [List.getD_eq_getElem?_getD, List.getElem?_set]
  simp [h]

theorem getD_set_ne {α : Type} (l : List α) {i j : Nat} (a d : α) (h : i ≠ j) :
    (l.set i a).getD j d = l.getD j d := by
  rw [List.getD_eq_getElem?_getD, List.getElem?_set, if_neg h, ← List.getD_eq_getElem?_getD]

/-! ### `removeFilterOnce` lemmas -/

theorem removeFilterOnce_not_mem {fs : List String} {nm : String} (h : nm ∉ fs) :
    removeFilterOnce fs nm = fs := by
  rw [removeFilterOnce, List.findIdx?_eq_none_iff.mpr]
  intro x hx
  simp only [beq_eq_false_iff_ne, ne_eq]
  rintro rfl
  exact h hx

theorem removeFilterOnce_perm {fs : List String} {nm : String} (h : nm ∈ fs) :
    (removeFilterOnce fs nm).Perm (fs.erase nm) := by
  have hex : ∃ x ∈ fs, (x == nm) = true := ⟨nm, h, by simp⟩
  cases hidx : fs.findIdx? (· == nm) with
  | none =>
    rw [List.findIdx?_eq_none_iff] at hidx
    obtain ⟨x, hx, hbx⟩ := hex
    rw [hidx x hx] at hbx
    simp at hbx
  | some i =>
    simp only [removeFilterOnce, hidx]
    obtain ⟨hi, hfi⟩ := List.findIdx?_eq_some_iff_findIdx_eq.mp hidx
    obtain ⟨hfsi, hprev⟩ := (List.findIdx_eq hi).mp hfi
    have hfsi' : fs[i] = nm := by simpa using hfsi
    have hA : ∀ x ∈ fs.take i, x ≠ nm := by
      intro x hx
      obtain ⟨j, hj, hxj⟩ := List.mem_take_iff_getElem.mp hx
      have hj' : j < i := lt_of_lt_of_le hj inf_le_left
      have := hprev j hj'
      rw [← hxj]
      simpa using this
    have htklen : (fs.take i).length = i := by
      simp
      omega
    have hsplit : fs = fs.take i ++ nm :: fs.drop (i + 1) := by
      conv_lhs => rw [← List.take_append_drop i fs]
      rw [List.drop_eq_getElem_cons hi, hfsi']
    have herase : fs.erase nm = fs.take i ++ fs.drop (i + 1) := by
      conv_lhs => rw [hsplit]
      rw [List.erase_append_right _ (fun hmem => (hA nm hmem) rfl), List.erase_cons_head]
    rcases List.eq_nil_or_concat (fs.drop (i + 1)) with hB | ⟨B', lb, hB⟩
    · -- the matched entry is the last element
      have hlast : fs.getLast?.getD "" = nm := by
        conv_lhs => rw [hsplit, hB]
        rw [List.getLast?_concat]
        rfl
      have hset : fs.set i (fs.getLast?.getD "") = fs := by
        rw [hlast]
        conv_lhs => rw [hsplit, hB]
        conv_rhs => rw [hsplit, hB]
        rw [List.set_append, if_neg (by rw [htklen]; omega), htklen]
        simp
      rw [hset, herase, hB, List.append_nil]
      conv_lhs => rw [hsplit, hB]
      rw [List.dropLast_concat]
    · -- the matched entry is strictly before the last element
      rw [List.concat_eq_append] at hB
      have hlast : fs.getLast?.getD "" = lb := by
        conv_lhs => rw [hsplit, hB]
        rw [show fs.take i ++ nm :: (B' ++ [lb]) = (fs.take i ++ nm :: B') ++ [lb] by simp,
          List.getLast?_concat]
        rfl
      rw [hlast]
      conv_lhs => rw [hsplit]
      rw [List.set_append, if_neg (by rw [htklen]; omega), htklen]
      have hsub : i - i = 0 := by omega
      rw [hsub]
      have hset0 : (nm :: fs.drop (i + 1)).set 0 lb = lb :: fs.drop (i + 1) := rfl
      rw [hset0, hB, herase, hB]
      rw [show fs.take i ++ lb :: (B' ++ [lb]) = (fs.take i ++ lb :: B') ++ [lb] by simp,
        List.dropLast_concat]
      have hp : (lb :: B').Perm (B' ++ [lb]) := (List.perm_append_singleton lb B').symm
      exact List.Perm.append_left (fs.take i) hp

theorem removeFilterOnce_count_self {fs : List String} {nm : String} (h : nm ∈ fs) :
    (removeFilterOnce fs nm).count nm = fs.count nm - 1 := by
  rw [(removeFilterOnce_perm h).count_eq]
  simp [List.count_erase]

theorem removeFilterOnce_count_ne {fs : List String} {nm g : String} (hg : g ≠ nm) :
    (removeFilterOnce fs nm).count g = fs.count g := by
  by_cases h : nm ∈ fs
  · rw [(removeFilterOnce_perm h).count_eq, List.count_erase, if_neg (by simpa using Ne.symm hg)]
    simp
  · rw [removeFilterOnce_not_mem h]

/-! ### Colon-splitting lemmas -/

theorem splitOnColon_no_colon (u : List Char) (hu : ':' ∉ u) : splitOnColon u = [u] := by
  induction u with
  | nil => rfl
  | cons c rest ih =>
    rw [splitOnColon, if_neg (by rintro rfl; exact hu (by simp)),
      ih (fun hc => hu (by simp [hc]))]

theorem splitOnColon_append (u v : List Char) (hu : ':' ∉ u) :
    splitOnColon (u ++ ':' :: v) = u :: splitOnColon v := by
  induction u with
  | nil => simp [splitOnColon]
  | cons c rest ih =>
    rw [List.cons_append, splitOnColon, if_neg (by rintro rfl; exact hu (by simp)),
      ih (fun hc => hu (by simp [hc]))]

theorem declObjectKey_data (p f : String) :
    (declObjectKey p f).data = p.data ++ ':' :: f.data := by
  rw [declObjectKey, String.data_append, String.data_append]
  simp

theorem nameOfKey_declObjectKey {p f : String} (hp : ':' ∉ p.data) (hf : ':' ∉ f.data) :
    nameOfKey (declObjectKey p f) = f := by
  rw [nameOfKey, declObjectKey_data, splitOnColon_append _ _ hp, splitOnColon_no_colon _ hf]

theorem splitOnColon_ne_nil (u : List Char) : splitOnColon u ≠ [] := by
  cases u with
  | nil => simp [splitOnColon]
  | cons c rest =>
    rw [splitOnColon]
    by_cases hc : c = ':'
    · rw [if_pos hc]
      simp
    · rw [if_neg hc]
      cases h : splitOnColon rest with
      | nil => simp
      | cons g gs => simp

theorem splitOnColon_singleton {u v : List Char} (h : splitOnColon u = [v]) : u = v := by
  induction u generalizing v with
  | nil =>
    rw [splitOnColon] at h
    simpa using h.symm
  | cons c rest ih =>
    rw [splitOnColon] at h
    by_cases hc : c = ':'
    · rw [if_pos hc] at h
      have := splitOnColon_ne_nil rest
      simp at h
      exact absurd h.2 this
    · rw [if_neg hc] at h
      cases hs : splitOnColon rest with
      | nil => exact absurd hs (splitOnColon_ne_nil rest)
      | cons g gs =>
        rw [hs] at h
        rw [List.cons.injEq] at h
        obtain ⟨hv, hgs⟩ := h
        have hrest : rest = g := ih (by rw [hs, hgs])
        rw [← hv, hrest]

/-- Key injectivity: the right-hand key's parts and the left package path
are colon-free; equality then forces the left filter name to agree as
well. -/
theorem declObjectKey_inj {p f p' f' : String} (hp : ':' ∉ p.data)
    (hp' : ':' ∉ p'.data) (hf' : ':' ∉ f'.data)
    (h : declObjectKey p f = declObjectKey p' f') : p = p' ∧ f = f' := by
  have hd := congrArg String.data h
  rw [declObjectKey_data, declObjectKey_data] at hd
  have hs := congrArg splitOnColon hd
  rw [splitOnColon_append _ _ hp, splitOnColon_append _ _ hp',
    splitOnColon_no_colon _ hf'] at hs
  rw [List.cons.injEq] at hs
  obtain ⟨h1, h2⟩ := hs
  exact ⟨String.ext h1, String.ext (splitOnColon_singleton h2)⟩

/-! ### `initDce` characterization -/

/-- The entries the construction loop appends to the bucket of key `o`:
position `i0 + k` once per matching filter occurrence of the `k`-th
declaration of the suffix. -/
def regEntries : List (String × Decl) → Nat → String → List Nat
  | [], _, _ => []
  | (p, d) :: rest, i0, o =>
    (d.DceFilters.filter (fun f => declObjectKey p f = o)).map (fun _ => i0) ++
      regEntries rest (i0 + 1) o

/-- The worklist seeds: positions of declarations with empty filters. -/
def seedEntries : List (String × Decl) → Nat → List Nat
  | [], _ => []
  | (_, d) :: rest, i0 =>
    (if d.DceFilters = [] then [i0] else []) ++ seedEntries rest (i0 + 1)

/-- Merging a bucket lookup result with newly appended entries. -/
def mergeBucket (old : Option (List Nat)) (new : List Nat) : Option (List Nat) :=
  match old with
  | some b => some (b ++ new)
  | none => if new = [] then none else some new

theorem mergeBucket_nil (old : Option (List Nat)) : mergeBucket old [] = old := by
  cases old with
  | none => rfl
  | some b => simp [mergeBucket]

theorem mergeBucket_append (old : Option (List Nat)) (n1 n2 : List Nat) :
    mergeBucket (mergeBucket old n1) n2 = mergeBucket old (n1 ++ n2) := by
  cases old with
  | some b => simp [mergeBucket]
  | none =>
    by_cases h1 : n1 = []
    · subst h1
      simp [mergeBucket]
    · simp only [mergeBucket, if_neg h1, if_neg (show ¬(n1 ++ n2 = []) by simp [h1])]

theorem lookupIndex_registerDecl_self (idx : List (String × List Nat)) (o : String)
    (i : Nat) :
    lookupIndex (registerDecl idx o i) o = some ((lookupIndex idx o).getD [] ++ [i]) := by
  induction idx with
  | nil => simp [registerDecl, lookupIndex]
  | cons kb rest ih =>
    obtain ⟨k, b⟩ := kb
    rw [registerDecl]
    by_cases hk : k = o
    · rw [if_pos hk, lookupIndex, if_pos hk, lookupIndex, if_pos hk]
      simp
    · rw [if_neg hk, lookupIndex, if_neg hk, lookupIndex, if_neg hk, ih]

theorem lookupIndex_registerDecl_ne (idx : List (String × List Nat)) {o k : String}
    (i : Nat) (h : k ≠ o) :
    lookupIndex (registerDecl idx o i) k = lookupIndex idx k := by
  induction idx with
  | nil =>
    simp only [registerDecl, lookupIndex]
    rw [if_neg (fun hh => h hh.symm)]
  | cons kb rest ih =>
    obtain ⟨k', b⟩ := kb
    rw [registerDecl]
    by_cases hk : k' = o
    · rw [if_pos hk, lookupIndex, lookupIndex]
      by_cases hk2 : k' = k
      · exact absurd (hk2.symm.trans hk) h
      · rw [if_neg hk2, if_neg hk2]
    · rw [if_neg hk, lookupIndex, lookupIndex]
      by_cases hk2 : k' = k
      · rw [if_pos hk2, if_pos hk2]
      · rw [if_neg hk2, if_neg hk2, ih]

theorem registerDecl_keys (idx : List (String × List Nat)) (o : String) (i : Nat) :
    (registerDecl idx o i).map Prod.fst =
      if o ∈ idx.map Prod.fst then idx.map Prod.fst else idx.map Prod.fst ++ [o] := by
  induction idx with
  | nil => simp [registerDecl]
  | cons kb rest ih =>
    obtain ⟨k, b⟩ := kb
    rw [registerDecl]
    by_cases hk : k = o
    · subst hk
      rw [if_pos (show k ∈ ((k, b) :: rest).map Prod.fst by simp)]
      simp
    · rw [if_neg hk]
      simp only [List.map_cons, List.mem_cons]
      rw [ih]
      by_cases hm : o ∈ rest.map Prod.fst
      · rw [if_pos hm, if_pos (Or.inr hm)]
      · rw [if_neg hm,
          if_neg (by rintro (h | h); exact hk h.symm; exact hm h)]
        simp

theorem registerDecl_keys_nodup {idx : List (String × List Nat)} (o : String) (i : Nat)
    (hnd : (idx.map Prod.fst).Nodup) :
    ((registerDecl idx o i).map Prod.fst).Nodup := by
  rw [registerDecl_keys]
  by_cases hm : o ∈ idx.map Prod.fst
  · rw [if_pos hm]
    exact hnd
  · rw [if_neg hm]
    rw [List.nodup_append]
    refine ⟨hnd, List.nodup_singleton o, ?_⟩
    intro x hx hxo
    rw [List.mem_singleton] at hxo
    exact hm (hxo ▸ hx)

theorem sumBuckets_registerDecl (idx : List (String × List Nat)) (o : String) (i : Nat) :
    sumBuckets (registerDecl idx o i) = sumBuckets idx + 1 := by
  induction idx with
  | nil => simp [registerDecl, sumBuckets]
  | cons kb rest ih =>
    obtain ⟨k, b⟩ := kb
    rw [registerDecl]
    by_cases hk : k = o
    · rw [if_pos hk]
      simp [sumBuckets]
      omega
    · rw [if_neg hk]
      simp only [sumBuckets, List.map_cons, List.sum_cons] at ih ⊢
      omega

theorem lookupIndex_foldl_registerDecl (p : String) (i : Nat) (fl : List String)
    (o : String) : ∀ ix : List (String × List Nat),
    lookupIndex (fl.foldl (fun ix f => registerDecl ix (declObjectKey p f) i) ix) o =
      mergeBucket (lookupIndex ix o)
        ((fl.filter (fun f => declObjectKey p f = o)).map (fun _ => i)) := by
  induction fl with
  | nil => intro ix; simp [mergeBucket_nil]
  | cons f fl ih =>
    intro ix
    rw [List.foldl_cons, ih]
    by_cases hf : declObjectKey p f = o
    · rw [List.filter_cons_of_pos (by simp [hf]), List.map_cons, hf,
        lookupIndex_registerDecl_self]
      cases hlk : lookupIndex ix o with
      | none => simp [mergeBucket]
      | some b => simp [mergeBucket]
    · rw [List.filter_cons_of_neg (by simp [hf]),
        lookupIndex_registerDecl_ne _ i (fun hh => hf hh.symm)]

theorem foldl_registerDecl_keys_nodup (p : String) (i : Nat) (fl : List String) :
    ∀ ix : List (String × List Nat), ((ix.map Prod.fst).Nodup) →
      (((fl.foldl (fun ix f => registerDecl ix (declObjectKey p f) i) ix)).map
        Prod.fst).Nodup := by
  induction fl with
  | nil => intro ix h; exact h
  | cons f fl ih =>
    intro ix h
    rw [List.foldl_cons]
    exact ih _ (registerDecl_keys_nodup _ i h)

theorem foldl_registerDecl_sumBuckets (p : String) (i : Nat) (fl : List String) :
    ∀ ix : List (String × List Nat),
      sumBuckets (fl.foldl (fun ix f => registerDecl ix (declObjectKey p f) i) ix) =
        sumBuckets ix + fl.length := by
  induction fl with
  | nil => intro ix; simp
  | cons f fl ih =>
    intro ix
    rw [List.foldl_cons, ih, sumBuckets_registerDecl]
    simp
    omega

theorem initDceAux_spec (ds' : List (String × Decl)) : ∀ (i0 : Nat) (s : DceState),
    (initDceAux ds' i0 s).fs = s.fs ∧
    (initDceAux ds' i0 s).pending = s.pending ++ seedEntries ds' i0 ∧
    ∀ o, lookupIndex (initDceAux ds' i0 s).index o =
      mergeBucket (lookupIndex s.index o) (regEntries ds' i0 o) := by
  induction ds' with
  | nil =>
    intro i0 s
    refine ⟨rfl, by simp [initDceAux, seedEntries], fun o => ?_⟩
    simp [initDceAux, regEntries, mergeBucket_nil]
  | cons pd rest ih =>
    intro i0 s
    obtain ⟨p, d⟩ := pd
    by_cases hf : d.DceFilters = []
    · have heq : initDceAux ((p, d) :: rest) i0 s =
          initDceAux rest (i0 + 1) { s with pending := s.pending ++ [i0] } := by
        rw [initDceAux]
        simp [hf]
      obtain ⟨ih1, ih2, ih3⟩ := ih (i0 + 1) { s with pending := s.pending ++ [i0] }
      rw [heq]
      refine ⟨ih1, ?_, fun o => ?_⟩
      · rw [ih2]
        simp [seedEntries, hf]
      · rw [ih3 o, regEntries, hf]
        simp
    · have heq : initDceAux ((p, d) :: rest) i0 s =
          initDceAux rest (i0 + 1)
            { s with
              index := d.DceFilters.foldl
                (fun ix f => registerDecl ix (declObjectKey p f) i0) s.index } := by
        rw [initDceAux]
        simp [hf]
      obtain ⟨ih1, ih2, ih3⟩ := ih (i0 + 1)
        { s with
          index := d.DceFilters.foldl
            (fun ix f => registerDecl ix (declObjectKey p f) i0) s.index }
      rw [heq]
      refine ⟨ih1, ?_, fun o => ?_⟩
      · rw [ih2]
        simp [seedEntries, hf]
      · rw [ih3 o]
        simp only
        rw [lookupIndex_foldl_registerDecl, mergeBucket_append, regEntries]

theorem initDceAux_keys_nodup (ds' : List (String × Decl)) : ∀ (i0 : Nat) (s : DceState),
    ((s.index.map Prod.fst).Nodup) →
      (((initDceAux ds' i0 s).index).map Prod.fst).Nodup := by
  induction ds' with
  | nil => intro i0 s h; exact h
  | cons pd rest ih =>
    intro i0 s h
    obtain ⟨p, d⟩ := pd
    rw [initDceAux]
    by_cases hf : d.DceFilters = []
    · rw [if_pos hf]
      exact ih _ _ h
    · rw [if_neg hf]
      exact ih _ _ (foldl_registerDecl_keys_nodup p i0 d.DceFilters s.index h)

theorem initDceAux_sumBuckets (ds' : List (String × Decl)) : ∀ (i0 : Nat) (s : DceState),
    sumBuckets (initDceAux ds' i0 s).index ≤ sumBuckets s.index + totalFilters ds' := by
  induction ds' with
  | nil => intro i0 s; simp [initDceAux, totalFilters]
  | cons pd rest ih =>
    intro i0 s
    obtain ⟨p, d⟩ := pd
    rw [initDceAux]
    have htf : totalFilters ((p, d) :: rest) = d.DceFilters.length + totalFilters rest := by
      simp [totalFilters]
    by_cases hf : d.DceFilters = []
    · rw [if_pos hf]
      have := ih (i0 + 1) { s with pending := s.pending ++ [i0] }
      dsimp only at this
      rw [htf]
      omega
    · rw [if_neg hf]
      have := ih (i0 + 1)
        { s with
          index := d.DceFilters.foldl
            (fun ix f => registerDecl ix (declObjectKey p f) i0) s.index }
      rw [htf]
      have hsb := foldl_registerDecl_sumBuckets p i0 d.DceFilters s.index
      simp only at this
      omega

theorem initDce_fs (ds : List (String × Decl)) :
    (initDce ds).fs = ds.map (fun pd => pd.2.DceFilters) :=
  (initDceAux_spec ds 0 _).1

theorem initDce_pending (ds : List (String × Decl)) :
    (initDce ds).pending = seedEntries ds 0 := by
  have := (initDceAux_spec ds 0 ⟨[], ds.map (fun pd => pd.2.DceFilters), []⟩).2.1
  simpa [initDce] using this

theorem initDce_lookup (ds : List (String × Decl)) (o : String) :
    lookupIndex (initDce ds).index o =
      if regEntries ds 0 o = [] then none else some (regEntries ds 0 o) := by
  have := (initDceAux_spec ds 0 ⟨[], ds.map (fun pd => pd.2.DceFilters), []⟩).2.2 o
  rw [initDce]
  rw [this]
  rfl

theorem initDce_keys_nodup (ds : List (String × Decl)) :
    (((initDce ds).index).map Prod.fst).Nodup :=
  initDceAux_keys_nodup ds 0 _ (by simp)

theorem initDce_sumBuckets (ds : List (String × Decl)) :
    sumBuckets (initDce ds).index ≤ totalFilters ds := by
  have := initDceAux_sumBuckets ds 0 ⟨[], ds.map (fun pd => pd.2.DceFilters), []⟩
  simpa [initDce, sumBuckets] using this

theorem mem_seedEntries (ds' : List (String × Decl)) : ∀ (i0 x : Nat),
    x ∈ seedEntries ds' i0 ↔
      i0 ≤ x ∧ x - i0 < ds'.length ∧ (ds'.getD (x - i0) default).2.DceFilters = [] := by
  induction ds' with
  | nil => intro i0 x; simp [seedEntries]
  | cons pd rest ih =>
    intro i0 x
    obtain ⟨p, d⟩ := pd
    rw [seedEntries, List.mem_append, ih (i0 + 1) x]
    constructor
    · rintro (hx | ⟨h1, h2, h3⟩)
      · have hx0 : x = i0 ∧ d.DceFilters = [] := by
          by_cases hf : d.DceFilters = []
          · rw [if_pos hf] at hx
            simp at hx
            exact ⟨hx, hf⟩
          · rw [if_neg hf] at hx
            simp at hx
        obtain ⟨rfl, hf⟩ := hx0
        refine ⟨le_refl _, by simp, ?_⟩
        simpa using hf
      · refine ⟨by omega, by simp; omega, ?_⟩
        have hxi : x - i0 = (x - (i0 + 1)) + 1 := by omega
        rw [hxi, List.getD_cons_succ]
        exact h3
    · rintro ⟨h1, h2, h3⟩
      by_cases hx : x = i0
      · subst hx
        simp at h3
        left
        rw [if_pos h3]
        simp
      · right
        have hxi : x - i0 = (x - (i0 + 1)) + 1 := by omega
        rw [hxi, List.getD_cons_succ] at h3
        rw [List.length_cons] at h2
        exact ⟨by omega, by omega, h3⟩

theorem count_map_const {α : Type} (l : List α) (c j : Nat) :
    (l.map (fun _ => c)).count j = if j = c then l.length else 0 := by
  induction l with
  | nil => simp
  | cons a l ih =>
    rw [List.map_cons, List.count_cons, ih]
    by_cases h : j = c
    · subst h
      simp
    · rw [if_neg h, if_neg h, if_neg (by simpa using Ne.symm h)]

theorem count_regEntries (ds' : List (String × Decl)) : ∀ (i0 : Nat) (o : String) (j : Nat),
    (regEntries ds' i0 o).count j =
      if i0 ≤ j ∧ j - i0 < ds'.length then
        (((ds'.getD (j - i0) default).2.DceFilters).filter
          (fun f => declObjectKey ((ds'.getD (j - i0) default).1) f = o)).length
      else 0 := by
  induction ds' with
  | nil => intro i0 o j; simp [regEntries]
  | cons pd rest ih =>
    intro i0 o j
    obtain ⟨p, d⟩ := pd
    rw [regEntries, List.count_append, count_map_const, ih (i0 + 1) o j]
    by_cases hj : j = i0
    · subst hj
      rw [if_pos rfl, if_neg (by omega), if_pos (by simp)]
      simp
    · rw [if_neg hj]
      by_cases hj2 : i0 ≤ j ∧ j - i0 < rest.length + 1
      · have hj3 : i0 + 1 ≤ j ∧ j - (i0 + 1) < rest.length := by omega
        rw [if_pos hj3, if_pos (by simpa using hj2)]
        have hxi : j - i0 = (j - (i0 + 1)) + 1 := by omega
        rw [hxi]
        simp
      · have hj3 : ¬(i0 + 1 ≤ j ∧ j - (i0 + 1) < rest.length) := by omega
        rw [if_neg hj3, if_neg (by simpa using hj2)]

theorem getD_mem {α : Type} (l : List α) (n : Nat) (d : α) (h : n < l.length) :
    l.getD n d ∈ l := by
  rw [List.getD_eq_getElem?_getD, List.getElem?_eq_getElem h]
  simpa using List.getElem_mem h

/-- Packaged facts about the initial index bucket of a key, under
colon-freeness: the key names a declaration's filter, and the bucket holds
each declaration position once per occurrence of that filter name. -/
theorem initDce_bucket_spec {ds : List (String × Decl)} (hcf : ColonFree ds)
    {o : String} {b : List Nat} (hlk : lookupIndex (initDce ds).index o = some b) :
    ∃ i0, i0 < ds.length ∧ ∃ f0, f0 ∈ dFilters ds i0 ∧ o = declObjectKey (dPkg ds i0) f0 ∧
      nameOfKey o = f0 ∧
      ∀ j, b.count j =
        if j < ds.length ∧ dPkg ds j = dPkg ds i0 then (dFilters ds j).count f0 else 0 := by
  rw [initDce_lookup] at hlk
  by_cases hre : regEntries ds 0 o = []
  · rw [if_pos hre] at hlk
    exact absurd hlk (by simp)
  · rw [if_neg hre] at hlk
    obtain ⟨rfl⟩ : regEntries ds 0 o = b := by
      simpa using hlk
    obtain ⟨x, hx⟩ := List.exists_mem_of_ne_nil _ hre
    have hcx : 0 < (regEntries ds 0 o).count x := List.count_pos_iff.mpr hx
    rw [count_regEntries] at hcx
    by_cases hb : 0 ≤ x ∧ x - 0 < ds.length
    swap
    · rw [if_neg hb] at hcx
      omega
    rw [if_pos hb] at hcx
    have hxlt : x < ds.length := by omega
    have hfilt : ((ds.getD x default).2.DceFilters).filter
        (fun f => declObjectKey ((ds.getD x default).1) f = o) ≠ [] := by
      intro hnil
      rw [show x - 0 = x from rfl, hnil] at hcx
      simp at hcx
    obtain ⟨f0, hf0⟩ := List.exists_mem_of_ne_nil _ hfilt
    rw [List.mem_filter] at hf0
    have hf0m : f0 ∈ dFilters ds x := hf0.1
    have hf0k : declObjectKey (dPkg ds x) f0 = o := by
      have := hf0.2
      simpa [dPkg] using this
    have hpcf : ':' ∉ (dPkg ds x).data := by
      have hmem : (ds.getD x default) ∈ ds := getD_mem _ _ _ hxlt
      exact hcf.1 _ hmem
    have hfcf : ':' ∉ f0.data := by
      have hmem : (ds.getD x default) ∈ ds := getD_mem _ _ _ hxlt
      exact hcf.2 _ hmem f0 hf0m
    refine ⟨x, hxlt, f0, hf0m, hf0k.symm, ?_, fun j => ?_⟩
    · rw [← hf0k]
      exact nameOfKey_declObjectKey hpcf hfcf
    · rw [count_regEntries]
      by_cases hj : 0 ≤ j ∧ j - 0 < ds.length
      · rw [if_pos hj]
        have hjlt : j < ds.length := by omega
        rw [show j - 0 = j from rfl]
        by_cases hpkg : dPkg ds j = dPkg ds x
        · rw [if_pos ⟨hjlt, hpkg⟩]
          rw [List.count_eq_countP, List.countP_eq_length_filter]
          congr 1
          apply List.filter_congr
          intro f hfmem
          have hfcf2 : ':' ∉ f.data := by
            have hmem : (ds.getD j default) ∈ ds := getD_mem _ _ _ hjlt
            exact hcf.2 _ hmem f hfmem
          have hpcf2 : ':' ∉ (dPkg ds j).data := by
            have hmem : (ds.getD j default) ∈ ds := getD_mem _ _ _ hjlt
            exact hcf.1 _ hmem
          rw [Bool.eq_iff_iff, decide_eq_true_eq, beq_iff_eq]
          constructor
          · intro hk
            have hk2 : declObjectKey (dPkg ds j) f = declObjectKey (dPkg ds x) f0 := by
              rw [show declObjectKey ((ds.getD j default).1) f =
                declObjectKey (dPkg ds j) f from rfl] at hk
              rw [hk, hf0k]
            exact (declObjectKey_inj hpcf2 hpcf hfcf hk2).2
          · rintro rfl
            rw [show ((ds.getD j default).1) = dPkg ds j from rfl, hpkg, hf0k]
        · rw [if_neg (by rintro ⟨_, hp⟩; exact hpkg hp)]
          rw [List.length_eq_zero, List.filter_eq_nil_iff]
          intro f hfmem
          simp only [decide_eq_true_eq]
          intro hk
          have hfcf2 : ':' ∉ f.data := by
            have hmem : (ds.getD j default) ∈ ds := getD_mem _ _ _ hjlt
            exact hcf.2 _ hmem f hfmem
          have hpcf2 : ':' ∉ (dPkg ds j).data := by
            have hmem : (ds.getD j default) ∈ ds := getD_mem _ _ _ hjlt
            exact hcf.1 _ hmem
          have hk2 : declObjectKey (dPkg ds j) f = declObjectKey (dPkg ds x) f0 := by
            rw [show declObjectKey ((ds.getD j default).1) f =
              declObjectKey (dPkg ds j) f from rfl] at hk
            rw [hk, hf0k]
          exact hpkg (declObjectKey_inj hpcf2 hpcf hfcf hk2).1
      · rw [if_neg hj, if_neg (by omega)]

/-- Every filter of every declaration is registered in the initial
index. -/
theorem initDce_registered {ds : List (String × Decl)} {i : Nat} (hi : i < ds.length)
    {f : String} (hf : f ∈ dFilters ds i) :
    ∃ b, lookupIndex (initDce ds).index (declObjectKey (dPkg ds i) f) = some b := by
  set o := declObjectKey (dPkg ds i) f with ho
  have hcount : 0 < (regEntries ds 0 o).count i := by
    rw [count_regEntries, if_pos (by omega)]
    rw [show i - 0 = i from rfl]
    have : f ∈ ((ds.getD i default).2.DceFilters).filter
        (fun f' => declObjectKey ((ds.getD i default).1) f' = o) := by
      rw [List.mem_filter]
      exact ⟨hf, by simp [ho, dPkg]⟩
    have hne : ((ds.getD i default).2.DceFilters).filter
        (fun f' => declObjectKey ((ds.getD i default).1) f' = o) ≠ [] :=
      List.ne_nil_of_mem this
    have := List.length_pos.mpr hne
    omega
  have hne : regEntries ds 0 o ≠ [] := by
    intro hnil
    rw [hnil] at hcount
    simp at hcount
  rw [initDce_lookup, if_neg hne]
  exact ⟨_, rfl⟩

/-! ### The worklist invariant -/

/-- The worklist invariant, with one position `e` exempted from the
processed-obligation (used for the declaration whose dependencies are
being processed; `e = ds.length` exempts nothing): (hlen) the filter table
covers all declarations; (hsub) the index is a sublist of the initial
index; (hcount) a filter name's current multiplicity equals its initial
multiplicity while its key is present and zero once consumed; (hpend)
every pending position is a live declaration; (hdone) a declaration with
an empty filter set is pending, exempted, or fully processed; (hcons)
every consumed key is matched by a live declaration's dependency. -/
structure DceInvAux (ds : List (String × Decl)) (e : Nat) (s : DceState) : Prop where
  hlen : s.fs.length = ds.length
  hsub : s.index.Sublist (initDce ds).index
  hcount : ∀ i, i < ds.length → ∀ f : String,
    (s.fs.getD i []).count f =
      if containsKey s.index (declObjectKey (dPkg ds i) f) then (dFilters ds i).count f
      else 0
  hpend : ∀ j ∈ s.pending, j < ds.length ∧ Live ds j
  hdone : ∀ i, i < ds.length → s.fs.getD i [] = [] →
    i ∈ s.pending ∨ i = e ∨ ∀ o ∈ dDeps ds i, containsKey s.index o = false
  hcons : ∀ o, containsKey s.index o = false →
    containsKey (initDce ds).index o = true →
    ∃ j, j < ds.length ∧ Live ds j ∧ o ∈ dDeps ds j

/-- The full worklist invariant (no exemption). -/
def DceInv (ds : List (String × Decl)) (s : DceState) : Prop :=
  DceInvAux ds ds.length s

theorem getD_map {α β : Type} (g : α → β) (l : List α) (i : Nat) (d : α)
    (hi : i < l.length) : (l.map g).getD i (g d) = g (l.getD i d) := by
  rw [List.getD_eq_getElem?_getD, List.getD_eq_getElem?_getD, List.getElem?_map,
    List.getElem?_eq_getElem hi]
  simp

theorem eq_nil_of_count_eq_zero {l : List String} (h : ∀ a : String, l.count a = 0) :
    l = [] := by
  cases l with
  | nil => rfl
  | cons a l =>
    have := h a
    rw [List.count_cons] at this
    simp at this

theorem containsKey_false_mono {idx idx' : List (String × List Nat)}
    (hsub : idx'.Sublist idx) (hnd : (idx.map Prod.fst).Nodup) {o : String}
    (h : containsKey idx o = false) : containsKey idx' o = false := by
  rw [containsKey] at h ⊢
  cases hlk : lookupIndex idx' o with
  | none => rfl
  | some b =>
    rw [containsKey_mono_of_sublist hsub hnd hlk] at h
    simp at h

/-- Initial establishment of the invariant. -/
theorem initDce_inv (ds : List (String × Decl)) : DceInv ds (initDce ds) := by
  refine ⟨?_, List.Sublist.refl _, ?_, ?_, ?_, ?_⟩
  · rw [initDce_fs]
    simp
  · intro i hi f
    have hfs : (initDce ds).fs.getD i [] = dFilters ds i := by
      rw [initDce_fs]
      exact getD_map (fun pd => pd.2.DceFilters) ds i default hi
    rw [hfs]
    by_cases hck : containsKey (initDce ds).index (declObjectKey (dPkg ds i) f) = true
    · rw [if_pos hck]
    · rw [if_neg hck]
      by_cases hf : f ∈ dFilters ds i
      · obtain ⟨b, hb⟩ := initDce_registered hi hf
        rw [containsKey, hb] at hck
        simp at hck
      · exact List.count_eq_zero.mpr hf
  · intro j hj
    rw [initDce_pending] at hj
    rw [mem_seedEntries] at hj
    obtain ⟨-, hlt, hempty⟩ := hj
    have hjlt : j < ds.length := by simpa using hlt
    refine ⟨hjlt, Live_intro ds j hjlt ?_⟩
    intro f hf
    rw [show dFilters ds j = (ds.getD (j - 0) default).2.DceFilters from rfl, hempty] at hf
    simp at hf
  · intro i hi hempty
    left
    rw [initDce_pending, mem_seedEntries]
    refine ⟨by omega, by simpa using hi, ?_⟩
    have hfs : (initDce ds).fs.getD i [] = dFilters ds i := by
      rw [initDce_fs]
      exact getD_map (fun pd => pd.2.DceFilters) ds i default hi
    rw [hfs] at hempty
    exact hempty
  · intro o h1 h2
    rw [h1] at h2
    simp at h2

/-! ### Worklist-discipline specification -/

/-- What a worklist pop discipline must satisfy: popping an empty list
fails, and a successful pop returns a permutation split. -/
def PopSpec (pop : List Nat → Option (Nat × List Nat)) : Prop :=
  ∀ l : List Nat, (pop l = none → l = []) ∧
    ∀ d rest, pop l = some (d, rest) → l.Perm (d :: rest)

theorem popBack_spec : PopSpec popBack := by
  intro l
  constructor
  · intro h
    rw [popBack] at h
    cases hl : l.getLast? with
    | none => exact List.getLast?_eq_none_iff.mp hl
    | some d => rw [hl] at h; simp at h
  · intro d rest h
    rw [popBack] at h
    cases hl : l.getLast? with
    | none => rw [hl] at h; simp at h
    | some d' =>
      rw [hl] at h
      simp at h
      obtain ⟨h1, h2⟩ := h
      have hne : l ≠ [] := by
        rintro rfl
        simp at hl
      have hlast : l.getLast hne = d := by
        have hgl := List.getLast?_eq_getLast l hne
        rw [hl] at hgl
        simp at hgl
        rw [← h1, hgl]
      rw [← h2]
      conv_lhs => rw [← List.dropLast_append_getLast hne, hlast]
      exact List.perm_append_singleton d l.dropLast

theorem popFront_spec : PopSpec popFront := by
  intro l
  constructor
  · intro h
    cases l with
    | nil => rfl
    | cons d rest => simp [popFront] at h
  · intro d rest h
    cases l with
    | nil => simp [popFront] at h
    | cons d' rest' =>
      simp [popFront] at h
      obtain ⟨rfl, rfl⟩ := h
      exact List.Perm.refl _

theorem consumeBucket_spec (nm : String) :
    ∀ (b : List Nat) (fs : List (List String)) (pending : List Nat),
    (∀ j ∈ b, j < fs.length) →
    (∀ j ∈ b, b.count j = (fs.getD j []).count nm) →
    (consumeBucket nm b fs pending).1.length = fs.length ∧
    (∀ j, j ∉ b → (consumeBucket nm b fs pending).1.getD j [] = fs.getD j []) ∧
    (∀ j ∈ b, ((consumeBucket nm b fs pending).1.getD j []).count nm = 0) ∧
    (∀ (j : Nat) (g : String), g ≠ nm →
      ((consumeBucket nm b fs pending).1.getD j []).count g = (fs.getD j []).count g) ∧
    (∀ x, x ∈ (consumeBucket nm b fs pending).2 ↔
      x ∈ pending ∨ (x ∈ b ∧ (consumeBucket nm b fs pending).1.getD x [] = [])) ∧
    (consumeBucket nm b fs pending).2.length ≤ pending.length + b.length := by
  intro b
  induction b with
  | nil =>
    intro fs pending _ _
    refine ⟨rfl, fun j _ => rfl, by simp, fun j g _ => rfl, fun x => ?_, by simp [consumeBucket]⟩
    simp [consumeBucket]
  | cons j b' ih =>
    intro fs pending hbound hcount
    have hjlt : j < fs.length := hbound j (by simp)
    have hcountj : (fs.getD j []).count nm = b'.count j + 1 := by
      have hcj := hcount j (by simp)
      rw [List.count_cons, if_pos (by simp)] at hcj
      omega
    have hmem : nm ∈ fs.getD j [] := by
      rw [← List.count_pos_iff]
      omega
    have hfsjnm : (removeFilterOnce (fs.getD j []) nm).count nm = b'.count j := by
      rw [removeFilterOnce_count_self hmem]
      omega
    have hstep : consumeBucket nm (j :: b') fs pending =
        consumeBucket nm b' (fs.set j (removeFilterOnce (fs.getD j []) nm))
          (if removeFilterOnce (fs.getD j []) nm = [] then pending ++ [j] else pending) :=
      rfl
    have hbound' : ∀ j' ∈ b', j' < (fs.set j (removeFilterOnce (fs.getD j []) nm)).length := by
      intro j' hj'
      rw [List.length_set]
      exact hbound j' (by simp [hj'])
    have hcount' : ∀ j' ∈ b',
        b'.count j' =
          ((fs.set j (removeFilterOnce (fs.getD j []) nm)).getD j' []).count nm := by
      intro j' hj'
      by_cases hjj : j' = j
      · subst hjj
        rw [getD_set_self _ _ _ _ hjlt]
        exact hfsjnm.symm
      · rw [getD_set_ne _ _ _ (fun hh => hjj hh.symm)]
        have h1 := hcount j' (List.mem_cons_of_mem _ hj')
        rw [List.count_cons] at h1
        simp only [beq_iff_eq] at h1
        rw [if_neg (fun hh => hjj hh.symm)] at h1
        simpa using h1
    obtain ⟨IH1, IH2, IH3, IH4, IH5, IH6⟩ := ih
      (fs.set j (removeFilterOnce (fs.getD j []) nm))
      (if removeFilterOnce (fs.getD j []) nm = [] then pending ++ [j] else pending)
      hbound' hcount'
    rw [hstep]
    have hjb' : j ∉ b' → removeFilterOnce (fs.getD j []) nm =
        (consumeBucket nm b' (fs.set j (removeFilterOnce (fs.getD j []) nm))
          (if removeFilterOnce (fs.getD j []) nm = [] then pending ++ [j] else pending)).1.getD
          j [] := by
      intro hnotin
      rw [IH2 j hnotin, getD_set_self _ _ _ _ hjlt]
    refine ⟨?_, ?_, ?_, ?_, ?_, ?_⟩
    · rw [IH1, List.length_set]
    · intro j' hj'
      have hne : j' ≠ j := fun hh => hj' (hh ▸ List.mem_cons_self j b')
      have hnb : j' ∉ b' := fun hh => hj' (List.mem_cons_of_mem _ hh)
      rw [IH2 j' hnb, getD_set_ne _ _ _ (fun hh => hne hh.symm)]
    · intro j' hj'
      rw [List.mem_cons] at hj'
      rcases hj' with rfl | hj'
      · by_cases hin : j' ∈ b'
        · exact IH3 j' hin
        · rw [← hjb' hin, hfsjnm, List.count_eq_zero.mpr hin]
      · exact IH3 j' hj'
    · intro j' g hg
      rw [IH4 j' g hg]
      by_cases hjj : j' = j
      · subst hjj
        rw [getD_set_self _ _ _ _ hjlt, removeFilterOnce_count_ne hg]
      · rw [getD_set_ne _ _ _ (fun hh => hjj hh.symm)]
    · intro x
      rw [IH5 x]
      constructor
      · rintro (hx | ⟨hxb, hxe⟩)
        · by_cases hfsj : removeFilterOnce (fs.getD j []) nm = []
          · rw [if_pos hfsj] at hx
            rw [List.mem_append] at hx
            rcases hx with hx | hx
            · exact Or.inl hx
            · rw [List.mem_singleton] at hx
              subst hx
              right
              have hnotin : x ∉ b' := by
                intro hin
                have := hcount' x hin
                rw [getD_set_self _ _ _ _ hjlt, hfsj] at this
                simp at this
                exact absurd (List.count_pos_iff.mpr hin) (by omega)
              refine ⟨by simp, ?_⟩
              rw [← hjb' hnotin]
              exact hfsj
          · rw [if_neg hfsj] at hx
            exact Or.inl hx
        · exact Or.inr ⟨List.mem_cons_of_mem _ hxb, hxe⟩
      · rintro (hx | ⟨hxb, hxe⟩)
        · left
          by_cases hfsj : removeFilterOnce (fs.getD j []) nm = []
          · rw [if_pos hfsj, List.mem_append]
            exact Or.inl hx
          · rwa [if_neg hfsj]
        · rw [List.mem_cons] at hxb
          rcases hxb with rfl | hxb
          · by_cases hin : x ∈ b'
            · exact Or.inr ⟨hin, hxe⟩
            · left
              have hfsj : removeFilterOnce (fs.getD x []) nm = [] := by
                rw [hjb' hin]
                exact hxe
              rw [if_pos hfsj, List.mem_append, List.mem_singleton]
              exact Or.inr rfl
          · exact Or.inr ⟨hxb, hxe⟩
    · refine le_trans IH6 ?_
      by_cases hfsj : removeFilterOnce (fs.getD j []) nm = []
      · rw [if_pos hfsj]
        simp only [List.length_append, List.length_cons, List.length_nil]
        omega
      · rw [if_neg hfsj]
        rw [List.length_cons]
        omega

theorem processDep_inv {ds : List (String × Decl)} (hcf : ColonFree ds) {e : Nat}
    {s : DceState} (hinv : DceInvAux ds e s) {d : Nat} (hd : d < ds.length)
    (hLd : Live ds d) {o : String} (ho : o ∈ dDeps ds d) :
    DceInvAux ds e (processDep s o) ∧
      (processDep s o).index.Sublist s.index ∧
      containsKey (processDep s o).index o = false ∧
      (∀ x ∈ s.pending, x ∈ (processDep s o).pending) ∧
      (totalFilters ds + 1) * (processDep s o).index.length +
          (processDep s o).pending.length ≤
        (totalFilters ds + 1) * s.index.length + s.pending.length := by
  have hnd0 : ((initDce ds).index.map Prod.fst).Nodup := initDce_keys_nodup ds
  have hnds : (s.index.map Prod.fst).Nodup := (hinv.hsub.map Prod.fst).nodup hnd0
  cases hlk : lookupIndex s.index o with
  | none =>
    have hpd : processDep s o = s := by
      simp only [processDep, hlk]
    rw [hpd]
    refine ⟨hinv, List.Sublist.refl _, ?_, fun x hx => hx, le_refl _⟩
    rw [containsKey, hlk]
    rfl
  | some b =>
    have hlk0 : lookupIndex (initDce ds).index o = some b :=
      containsKey_mono_of_sublist hinv.hsub hnd0 hlk
    obtain ⟨i0, hi0, f0, hf0m, hko, hnmo, hbc⟩ := initDce_bucket_spec hcf hlk0
    have hpd : processDep s o =
        ⟨eraseIndex s.index o,
          (consumeBucket (nameOfKey o) b s.fs s.pending).1,
          (consumeBucket (nameOfKey o) b s.fs s.pending).2⟩ := by
      simp only [processDep, hlk]
    rw [hpd, hnmo]
    have hp0cf : ':' ∉ (dPkg ds i0).data := hcf.1 _ (getD_mem _ _ _ hi0)
    have hf0cf : ':' ∉ f0.data := hcf.2 _ (getD_mem _ _ _ hi0) f0 hf0m
    have hmemb : ∀ j ∈ b, j < ds.length ∧ dPkg ds j = dPkg ds i0 := by
      intro j hj
      have hc := List.count_pos_iff.mpr hj
      rw [hbc j] at hc
      by_cases hcond : j < ds.length ∧ dPkg ds j = dPkg ds i0
      · exact hcond
      · rw [if_neg hcond] at hc
        omega
    have hbound : ∀ j ∈ b, j < s.fs.length := by
      intro j hj
      rw [hinv.hlen]
      exact (hmemb j hj).1
    have hcountpre : ∀ j ∈ b, b.count j = (s.fs.getD j []).count f0 := by
      intro j hj
      obtain ⟨hjn, hjpkg⟩ := hmemb j hj
      rw [hbc j, if_pos ⟨hjn, hjpkg⟩]
      have hkey : declObjectKey (dPkg ds j) f0 = o := by
        rw [hjpkg, ← hko]
      have := hinv.hcount j hjn f0
      rw [hkey] at this
      rw [this, if_pos (by rw [containsKey, hlk]; rfl)]
    obtain ⟨CB1, CB2, CB3, CB4, CB5, CB6⟩ :=
      consumeBucket_spec f0 b s.fs s.pending hbound hcountpre
    have herasesub : (eraseIndex s.index o).Sublist s.index := eraseIndex_sublist _ _
    have herasenone : lookupIndex (eraseIndex s.index o) o = none :=
      lookupIndex_eraseIndex_self hnds
    -- the new hcount field
    have hcount' : ∀ i, i < ds.length → ∀ f : String,
        ((consumeBucket f0 b s.fs s.pending).1.getD i []).count f =
          if containsKey (eraseIndex s.index o) (declObjectKey (dPkg ds i) f)
          then (dFilters ds i).count f else 0 := by
      intro i hi f
      have hpicf : ':' ∉ (dPkg ds i).data := hcf.1 _ (getD_mem _ _ _ hi)
      by_cases hkey : declObjectKey (dPkg ds i) f = o
      · rw [hkey]
        rw [if_neg (by rw [containsKey, herasenone]; simp)]
        have hinj := declObjectKey_inj hpicf hp0cf hf0cf (hkey.trans hko)
        obtain ⟨hpkgeq, hff0⟩ := hinj
        by_cases hib : i ∈ b
        · rw [hff0]
          exact CB3 i hib
        · rw [CB2 i hib]
          have hbci := hbc i
          rw [if_pos ⟨hi, hpkgeq⟩] at hbci
          have hbz : b.count i = 0 := List.count_eq_zero.mpr hib
          have hic := hinv.hcount i hi f
          rw [hkey] at hic
          rw [hic, if_pos (by rw [containsKey, hlk]; rfl)]
          rw [hff0]
          omega
      · have hck : containsKey (eraseIndex s.index o) (declObjectKey (dPkg ds i) f) =
            containsKey s.index (declObjectKey (dPkg ds i) f) := by
          rw [containsKey, containsKey, lookupIndex_eraseIndex_ne _ hkey]
        rw [hck]
        by_cases hf0 : f = f0
        · subst hf0
          have hpkgne : dPkg ds i ≠ dPkg ds i0 := by
            intro hpe
            exact hkey (by rw [hpe, ← hko])
          have hbci := hbc i
          rw [if_neg (by rintro ⟨_, hp⟩; exact hpkgne hp)] at hbci
          have hib : i ∉ b := by
            intro hin
            have := List.count_pos_iff.mpr hin
            omega
          rw [CB2 i hib]
          exact hinv.hcount i hi f
        · rw [CB4 i f hf0]
          exact hinv.hcount i hi f
    -- the new hcons field
    have hcons' : ∀ o', containsKey (eraseIndex s.index o) o' = false →
        containsKey (initDce ds).index o' = true →
        ∃ j, j < ds.length ∧ Live ds j ∧ o' ∈ dDeps ds j := by
      intro o' h1 h2
      by_cases hoo : o' = o
      · subst hoo
        exact ⟨d, hd, hLd, ho⟩
      · have : containsKey s.index o' = false := by
          rw [containsKey, ← lookupIndex_eraseIndex_ne s.index hoo]
          rw [containsKey] at h1
          cases hx : lookupIndex (eraseIndex s.index o) o' with
          | none => rfl
          | some bb => rw [hx] at h1; simp at h1
        exact hinv.hcons o' this h2
    refine ⟨⟨?_, ?_, hcount', ?_, ?_, hcons'⟩, herasesub, ?_, ?_, ?_⟩
    · rw [CB1]
      exact hinv.hlen
    · exact herasesub.trans hinv.hsub
    · -- hpend
      intro j hj
      rw [CB5 j] at hj
      rcases hj with hj | ⟨hjb, hje⟩
      · exact hinv.hpend j hj
      · obtain ⟨hjn, _⟩ := hmemb j hjb
        refine ⟨hjn, Live_intro ds j hjn ?_⟩
        intro f hf
        have hcz : ((consumeBucket f0 b s.fs s.pending).1.getD j []).count f = 0 := by
          rw [hje]
          simp
        rw [hcount' j hjn f] at hcz
        by_cases hck : containsKey (eraseIndex s.index o) (declObjectKey (dPkg ds j) f) = true
        · rw [if_pos hck] at hcz
          exact absurd (List.count_pos_iff.mpr hf) (by omega)
        · obtain ⟨bb, hbb⟩ := initDce_registered hjn hf
          exact hcons' _ (by simpa using hck) (by rw [containsKey, hbb]; rfl)
    · -- hdone
      intro i hi hie
      by_cases hib : i ∈ b
      · left
        rw [CB5 i]
        exact Or.inr ⟨hib, hie⟩
      · rw [CB2 i hib] at hie
        rcases hinv.hdone i hi hie with hc | hc | hc
        · left
          rw [CB5 i]
          exact Or.inl hc
        · exact Or.inr (Or.inl hc)
        · refine Or.inr (Or.inr ?_)
          intro o' ho'
          exact containsKey_false_mono herasesub hnds (hc o' ho')
    · -- erased key is gone
      rw [containsKey, herasenone]
      rfl
    · -- pending monotone
      intro x hx
      rw [CB5 x]
      exact Or.inl hx
    · -- measure
      have hblen : b.length ≤ totalFilters ds :=
        le_trans (bucket_length_le_sumBuckets (lookupIndex_mem hlk))
          (le_trans (sumBuckets_le_of_sublist hinv.hsub) (initDce_sumBuckets ds))
      have hlenidx := eraseIndex_length hlk
      have hplen := CB6
      set F := totalFilters ds
      set L := s.index.length
      set L' := (eraseIndex s.index o).length
      have : L' + 1 = L := hlenidx
      calc (F + 1) * L' + (consumeBucket f0 b s.fs s.pending).2.length
          ≤ (F + 1) * L' + (s.pending.length + b.length) := by omega
        _ ≤ (F + 1) * L' + (s.pending.length + F) := by omega
        _ ≤ (F + 1) * L + s.pending.length := by
            have hFL : (F + 1) * L = (F + 1) * L' + (F + 1) := by
              rw [← this]
              ring
            omega

theorem foldl_processDep_inv {ds : List (String × Decl)} (hcf : ColonFree ds) {e : Nat}
    {d : Nat} (hd : d < ds.length) (hLd : Live ds d) :
    ∀ (l : List String) (s : DceState), DceInvAux ds e s → (∀ o ∈ l, o ∈ dDeps ds d) →
      DceInvAux ds e (l.foldl processDep s) ∧
      (l.foldl processDep s).index.Sublist s.index ∧
      (∀ o ∈ l, containsKey (l.foldl processDep s).index o = false) ∧
      (∀ x ∈ s.pending, x ∈ (l.foldl processDep s).pending) ∧
      (totalFilters ds + 1) * (l.foldl processDep s).index.length +
          (l.foldl processDep s).pending.length ≤
        (totalFilters ds + 1) * s.index.length + s.pending.length := by
  intro l
  induction l with
  | nil =>
    intro s hinv _
    exact ⟨hinv, List.Sublist.refl _, by simp, fun x hx => hx, le_refl _⟩
  | cons o l ih =>
    intro s hinv hdep
    obtain ⟨P1, P2, P3, P4, P5⟩ := processDep_inv hcf hinv hd hLd (hdep o (by simp))
    obtain ⟨I1, I2, I3, I4, I5⟩ := ih (processDep s o) P1
      (fun o' ho' => hdep o' (by simp [ho']))
    rw [List.foldl_cons]
    refine ⟨I1, I2.trans P2, ?_, fun x hx => I4 x (P4 x hx), le_trans I5 P5⟩
    intro o' ho'
    rw [List.mem_cons] at ho'
    rcases ho' with rfl | ho'
    · have hnd0 := initDce_keys_nodup ds
      have hndp : ((processDep s o').index.map Prod.fst).Nodup :=
        (P1.hsub.map Prod.fst).nodup hnd0
      exact containsKey_false_mono I2 hndp P3
    · exact I3 o' ho'

theorem dceStepWith_inv {ds : List (String × Decl)} (hcf : ColonFree ds)
    {pop : List Nat → Option (Nat × List Nat)} (hpop : PopSpec pop) {s : DceState}
    (hinv : DceInv ds s) (hne : s.pending ≠ []) :
    DceInv ds (dceStepWith pop ds s) ∧
      (totalFilters ds + 1) * (dceStepWith pop ds s).index.length +
          (dceStepWith pop ds s).pending.length <
        (totalFilters ds + 1) * s.index.length + s.pending.length := by
  cases hp : pop s.pending with
  | none => exact absurd ((hpop s.pending).1 hp) hne
  | some dr =>
    obtain ⟨d, rest⟩ := dr
    have hperm := (hpop s.pending).2 d rest hp
    have hdmem : d ∈ s.pending := hperm.mem_iff.mpr (by simp)
    obtain ⟨hd, hLd⟩ := hinv.hpend d hdmem
    have hstep : dceStepWith pop ds s =
        (dDeps ds d).foldl processDep ⟨s.index, s.fs, rest⟩ := by
      simp only [dceStepWith, hp]
    have hinv' : DceInvAux ds d ⟨s.index, s.fs, rest⟩ := by
      refine ⟨hinv.hlen, hinv.hsub, hinv.hcount, ?_, ?_, hinv.hcons⟩
      · intro j hj
        exact hinv.hpend j (hperm.mem_iff.mpr (by simp [hj]))
      · intro i hi hie
        rcases hinv.hdone i hi hie with hc | hc | hc
        · have hmc := hperm.mem_iff.mp hc
          rw [List.mem_cons] at hmc
          rcases hmc with rfl | hmc
          · exact Or.inr (Or.inl rfl)
          · exact Or.inl hmc
        · exact absurd hc (by omega)
        · exact Or.inr (Or.inr hc)
    obtain ⟨F1, F2, F3, F4, F5⟩ := foldl_processDep_inv hcf hd hLd (dDeps ds d)
      ⟨s.index, s.fs, rest⟩ hinv' (fun o ho => ho)
    rw [hstep]
    constructor
    · refine ⟨F1.hlen, F1.hsub, F1.hcount, F1.hpend, ?_, F1.hcons⟩
      intro i hi hie
      rcases F1.hdone i hi hie with hc | hc | hc
      · exact Or.inl hc
      · subst hc
        exact Or.inr (Or.inr (fun o ho => F3 o ho))
      · exact Or.inr (Or.inr hc)
    · have hrest : rest.length + 1 = s.pending.length := by
        have hl := hperm.length_eq
        rw [List.length_cons] at hl
        omega
      dsimp only at F5
      omega

theorem dceLoopWith_inv {ds : List (String × Decl)} (hcf : ColonFree ds)
    {pop : List Nat → Option (Nat × List Nat)} (hpop : PopSpec pop) :
    ∀ (fuel : Nat) (s : DceState), DceInv ds s →
      DceInv ds (dceLoopWith pop ds fuel s) ∧
      ((totalFilters ds + 1) * s.index.length + s.pending.length < fuel →
        (dceLoopWith pop ds fuel s).pending = []) := by
  intro fuel
  induction fuel with
  | zero =>
    intro s hinv
    exact ⟨hinv, fun h => absurd h (Nat.not_lt_zero _)⟩
  | succ fuel ih =>
    intro s hinv
    rw [dceLoopWith]
    by_cases hp : s.pending = []
    · rw [if_pos hp]
      exact ⟨hinv, fun _ => hp⟩
    · rw [if_neg hp]
      obtain ⟨S1, S2⟩ := dceStepWith_inv hcf hpop hinv hp
      obtain ⟨L1, L2⟩ := ih (dceStepWith pop ds s) S1
      exact ⟨L1, fun h => L2 (by omega)⟩

theorem index_length_le_sumBuckets {idx : List (String × List Nat)}
    (h : ∀ kb ∈ idx, kb.2 ≠ []) : idx.length ≤ sumBuckets idx := by
  induction idx with
  | nil => simp [sumBuckets]
  | cons kb rest ih =>
    have hne := h kb (by simp)
    have hlen : 1 ≤ kb.2.length := by
      cases hl : kb.2 with
      | nil => exact absurd hl hne
      | cons a l => simp
    have := ih (fun kb' hkb' => h kb' (by simp [hkb']))
    simp only [sumBuckets, List.map_cons, List.sum_cons, List.length_cons] at *
    omega

theorem seedEntries_length (ds' : List (String × Decl)) : ∀ i0 : Nat,
    (seedEntries ds' i0).length ≤ ds'.length := by
  induction ds' with
  | nil => intro i0; simp [seedEntries]
  | cons pd rest ih =>
    intro i0
    obtain ⟨p, d⟩ := pd
    rw [seedEntries]
    have := ih (i0 + 1)
    by_cases hf : d.DceFilters = []
    · rw [if_pos hf]
      simp
      omega
    · rw [if_neg hf]
      simp
      omega

/-- Under any worklist discipline the loop drains within `dceFuel` and the
invariant holds at the final state. -/
theorem dceLoop_final {ds : List (String × Decl)} (hcf : ColonFree ds)
    {pop : List Nat → Option (Nat × List Nat)} (hpop : PopSpec pop) :
    DceInv ds (dceLoopWith pop ds (dceFuel ds) (initDce ds)) ∧
      (dceLoopWith pop ds (dceFuel ds) (initDce ds)).pending = [] := by
  obtain ⟨L1, L2⟩ := dceLoopWith_inv hcf hpop (dceFuel ds) (initDce ds) (initDce_inv ds)
  refine ⟨L1, L2 ?_⟩
  have hbne : ∀ kb ∈ (initDce ds).index, kb.2 ≠ [] := by
    intro kb hkb
    obtain ⟨o, b⟩ := kb
    have hlk := mem_lookupIndex_of_nodup (initDce_keys_nodup ds) hkb
    rw [initDce_lookup] at hlk
    by_cases hre : regEntries ds 0 o = []
    · rw [if_pos hre] at hlk
      simp at hlk
    · rw [if_neg hre] at hlk
      simp at hlk
      rw [← hlk]
      exact hre
  have h1 := index_length_le_sumBuckets hbne
  have h2 := initDce_sumBuckets ds
  have h3 : (initDce ds).pending.length ≤ ds.length := by
    rw [initDce_pending]
    exact seedEntries_length ds 0
  have h4 : (totalFilters ds + 1) * (initDce ds).index.length ≤
      (totalFilters ds + 1) * totalFilters ds :=
    Nat.mul_le_mul_left _ (le_trans h1 h2)
  have h5 : (totalFilters ds + 1) * totalFilters ds ≤
      (totalFilters ds + 1) * (totalFilters ds + 1) :=
    Nat.mul_le_mul_left _ (by omega)
  rw [dceFuel]
  omega

/-- Main characterization: under any worklist discipline, a declaration's
filter set drains to empty exactly when it is live in the order-free
semantics of the `Filters`/`Deps` relation. -/
theorem dce_final_fs_iff {ds : List (String × Decl)} (hcf : ColonFree ds)
    {pop : List Nat → Option (Nat × List Nat)} (hpop : PopSpec pop)
    {i : Nat} (hi : i < ds.length) :
    (dceLoopWith pop ds (dceFuel ds) (initDce ds)).fs.getD i [] = [] ↔ Live ds i := by
  obtain ⟨hinv, hpe⟩ := dceLoop_final hcf hpop
  constructor
  · intro hie
    refine Live_intro ds i hi ?_
    intro f hf
    have hcz : ((dceLoopWith pop ds (dceFuel ds) (initDce ds)).fs.getD i []).count f = 0 := by
      rw [hie]
      simp
    rw [hinv.hcount i hi f] at hcz
    by_cases hck : containsKey (dceLoopWith pop ds (dceFuel ds) (initDce ds)).index
        (declObjectKey (dPkg ds i) f) = true
    · rw [if_pos hck] at hcz
      exact absurd (List.count_pos_iff.mpr hf) (by omega)
    · obtain ⟨bb, hbb⟩ := initDce_registered hi hf
      exact hinv.hcons _ (by simpa using hck) (by rw [containsKey, hbb]; rfl)
  · intro hL
    refine Live_induction ds
      (fun j => (dceLoopWith pop ds (dceFuel ds) (initDce ds)).fs.getD j [] = []) ?_ i hL
    intro j hj hclosure
    apply eq_nil_of_count_eq_zero
    intro f
    rw [hinv.hcount j hj f]
    by_cases hf : f ∈ dFilters ds j
    · obtain ⟨j', hj', ⟨hLj', hPj'⟩, hk⟩ := hclosure f hf
      rcases hinv.hdone j' hj' hPj' with hc | hc | hc
      · rw [hpe] at hc
        simp at hc
      · exact absurd hc (by omega)
      · rw [hc _ hk]
        simp
    · rw [List.count_eq_zero.mpr hf]
      by_cases hck : containsKey (dceLoopWith pop ds (dceFuel ds) (initDce ds)).index
          (declObjectKey (dPkg ds j) f) = true
      · rw [if_pos hck]
      · rw [if_neg hck]

/-- Final-index characterization: a key survives exactly when it was
registered and no live declaration depends on it. -/
theorem dce_final_containsKey_iff {ds : List (String × Decl)} (hcf : ColonFree ds)
    {pop : List Nat → Option (Nat × List Nat)} (hpop : PopSpec pop) (o : String) :
    containsKey (dceLoopWith pop ds (dceFuel ds) (initDce ds)).index o = true ↔
      containsKey (initDce ds).index o = true ∧
        ¬∃ j, j < ds.length ∧ Live ds j ∧ o ∈ dDeps ds j := by
  obtain ⟨hinv, hpe⟩ := dceLoop_final hcf hpop
  constructor
  · intro hck
    rw [containsKey] at hck
    cases hlk : lookupIndex (dceLoopWith pop ds (dceFuel ds) (initDce ds)).index o with
    | none => rw [hlk] at hck; simp at hck
    | some b =>
      have hlk0 := containsKey_mono_of_sublist hinv.hsub (initDce_keys_nodup ds) hlk
      refine ⟨by rw [containsKey, hlk0]; rfl, ?_⟩
      rintro ⟨j, hj, hLj, hoj⟩
      have hfj : (dceLoopWith pop ds (dceFuel ds) (initDce ds)).fs.getD j [] = [] :=
        (dce_final_fs_iff hcf hpop hj).mpr hLj
      rcases hinv.hdone j hj hfj with hc | hc | hc
      · rw [hpe] at hc
        simp at hc
      · exact absurd hc (by omega)
      · have := hc o hoj
        rw [containsKey, hlk] at this
        simp at this
  · rintro ⟨h0, hnex⟩
    cases hck : containsKey (dceLoopWith pop ds (dceFuel ds) (initDce ds)).index o with
    | true => rfl
    | false => exact absurd (hinv.hcons o hck h0) hnex

/-! ## Program emission (`WriteProgramCode` / `WritePkgCode`,
compiler.go:163-308) -/

/-- Modelled from the spec (§4.3): the fixed runtime bootstrap prelude,
whose text lives outside `src/` (prelude.go).  Only its presence and
placement matter to the claims, so it is modelled as an opaque fixed
string, already whitespace-trimmed (`strings.TrimSpace`). -/
def preludeTrimmed : String := "<prelude>"

/-- Modelled from the spec (§4.3): `removeWhitespace(data, minify)` strips
insignificant whitespace when `minify` is set and returns the bytes
unchanged otherwise.  The stripping algorithm lives outside `src/`
(utils.go) and every claim is stated at `minify = false`, so it is
modelled as the identity. -/
def removeWhitespace (data : String) (minify : Bool) : String := data

/-- `strings.Join(l, ", ")`. -/
def joinComma : List String → String
  | [] => ""
  | [s] => s
  | s :: rest => s ++ ", " ++ joinComma rest

/-- `Compiler.WritePkgCode` (compiler.go:275-308), as the byte stream
written into the Source Map Filter.  The `FileSet` handling (lines
276-281) only configures position mapping and writes no bytes, so it does
not appear.  Braces in the emitted text are written with escapes. -/
def writePkgCode (pkg : Archive) (minify : Bool) : String :=
  removeWhitespace ("$packages[\"" ++ pkg.ImportPath ++ "\"] = (function() \x7b\n") minify
    ++ (let vars :=
          "$pkg = \x7b\x7d" ::
              pkg.Imports.map (fun imp =>
                imp.VarName ++ " = $packages[\"" ++ imp.Path ++ "\"]") ++
            (pkg.Declarations.filter
              (fun d => decide (d.DceFilters = [] ∧ d.Var ≠ ""))).map (fun d => d.Var)
        if vars ≠ [] then removeWhitespace ("\tvar " ++ joinComma vars ++ ";\n") minify
        else "")
    ++ String.join ((pkg.Declarations.filter (fun d => decide (d.DceFilters = []))).map
        (fun d => d.BodyCode))
    ++ removeWhitespace "\t$pkg.init = function() \x7b\n" minify
    ++ String.join ((pkg.Declarations.filter (fun d => decide (d.DceFilters = []))).map
        (fun d => d.InitCode))
    ++ removeWhitespace "\t\x7d;\n\treturn $pkg;\n\x7d)();" minify
    ++ "\n"

/-- The underlying-type information the interface-table algorithm needs
about a named type from the external `go/types` registry. -/
inductive UnderlyingKind where
  | interface (empty : Bool)
  | structKind
  | other
deriving DecidableEq

/-- A named type (`*types.TypeName`) as seen by the interface-table
algorithm: its package path (`Pkg().Path()`), its name (`Name()`), and the
kind of its underlying type. -/
structure TypeName where
  pkg : String
  name : String
  kind : UnderlyingKind
deriving DecidableEq

/-- The universe `error` interface (`types.New("error")`, compiler.go:214):
it has one method (`Error() string`), so it is not empty. -/
def errorTypeName : TypeName := ⟨"", "error", .interface false⟩

/-- The external `types.AssignableTo` oracle, for a candidate type itself
and for a pointer to it (`types.NewPointer`). -/
structure TypesOracle where
  assignable : TypeName → TypeName → Bool
  ptrAssignable : TypeName → TypeName → Bool

/-- Byte-wise comparison of two strings, the order used by
`sort.Strings`. -/
def bytesLe : List Char → List Char → Bool
  | [], _ => true
  | _ :: _, [] => false
  | a :: as, b :: bs =>
    if a.toNat < b.toNat then true
    else if b.toNat < a.toNat then false
    else bytesLe as bs

def strLe (a b : String) : Bool := bytesLe a.data b.data

/-- The consumption of the Go set `map[string]bool` built at
compiler.go:230-251 and sorted at compiler.go:252-256: collect the keys
(deduplicated) and sort them.  Insertion sort is used as the sorting
algorithm; on duplicate-free input every correct sort produces the same
list. -/
def sortedDedup (l : List String) : List String :=
  List.insertionSort (fun a b => strLe a b = true) l.dedup

/-- Value-form implementor reference (compiler.go:238 and 245). -/
def valueRef (t : TypeName) : String := "$packages[\"" ++ t.pkg ++ "\"]." ++ t.name

/-- The raw implementor references collected for interface `t` over the
candidate list (compiler.go:231-251); the Go code inserts them into a
`map[string]bool`, modelled as a list that is deduplicated and sorted by
`sortedDedup`. -/
def implementorRefs (oracle : TypesOracle) (tns : List TypeName) (t : TypeName) :
    List String :=
  tns.flatMap fun other =>
    match other.kind with
    | .interface _ => []
    | .structKind =>
      (if oracle.assignable other t then [valueRef other] else []) ++
        (if oracle.ptrAssignable other t then [valueRef other ++ ".Ptr"] else [])
    | .other =>
      (if oracle.assignable other t then [valueRef other] else []) ++
        (if oracle.ptrAssignable other t then ["$ptrType(" ++ valueRef other ++ ")"] else [])

/-- The emitted `implementedBy` list for one interface
(compiler.go:252-256). -/
def implementedByList (oracle : TypesOracle) (tns : List TypeName) (t : TypeName) :
    List String :=
  sortedDedup (implementorRefs oracle tns t)

/-- The emission target of a dispatch table (compiler.go:257-263): the
reserved name `$error` for the type named `error`, otherwise the
per-package reference. -/
def targetRef (t : TypeName) : String :=
  if t.name = "error" then "$error" else "$packages[\"" ++ t.pkg ++ "\"]." ++ t.name

/-- Whether a candidate type gets a dispatch table (compiler.go:226-229):
its underlying type is an interface that is not empty. -/
def isTableInterface (t : TypeName) : Bool :=
  match t.kind with
  | .interface empty => !empty
  | _ => false

/-- One interface's emitted table line (compiler.go:264). -/
def interfaceLine (oracle : TypesOracle) (tns : List TypeName) (t : TypeName)
    (minify : Bool) : String :=
  removeWhitespace
    (targetRef t ++ ".implementedBy = [" ++ joinComma (implementedByList oracle tns t) ++
      "];\n") minify

/-- The dispatch-table emission loop (compiler.go:225-266). -/
def interfaceTables (oracle : TypesOracle) (tns : List TypeName) (minify : Bool) :
    String :=
  String.join (tns.map fun t =>
    if isTableInterface t then interfaceLine oracle tns t minify else "")

/-- The candidate type names (compiler.go:214-224): the universe `error`
followed, package by package, by the scope's type names that do not appear
as a key of `declsByObject` after DCE.  `registry` models the external
`typesPackages` map: for each import path, the `*types.TypeName`s of the
package scope in `scope.Names()` order. -/
def allTypeNames (registry : String → List TypeName) (pkgs : List Archive)
    (finalIndex : List (String × List Nat)) : List TypeName :=
  errorTypeName :: pkgs.flatMap fun pkg =>
    (registry pkg.ImportPath).filter fun tn =>
      !containsKey finalIndex (declObjectKey pkg.ImportPath tn.name)

/-- Write-back of the mutated filter sets into the archives: the Go code
mutates `pkg.Declarations[i].DceFilters` in place through pointers, which
the functional rendering reproduces positionally. -/
def setDeclFilters : List Decl → List (List String) → List Decl
  | [], _ => []
  | d :: rest, fs =>
    { d with DceFilters := fs.headD d.DceFilters } :: setDeclFilters rest fs.tail

def rebuildArchives : List Archive → List (List String) → List Archive
  | [], _ => []
  | a :: rest, fs =>
    { a with Declarations := setDeclFilters a.Declarations (fs.take a.Declarations.length) } ::
      rebuildArchives rest (fs.drop a.Declarations.length)

/-- `Compiler.WriteProgramCode` (compiler.go:163-273) as the byte stream
written into the Source Map Filter, parameterized by the worklist
discipline (the source uses `popBack`): DCE, opening boilerplate and
prelude, each package's code, the interface dispatch tables, one init call
per package, and the entry call with closing boilerplate. -/
def writeProgramCodeWith (pop : List Nat → Option (Nat × List Nat))
    (registry : String → List TypeName) (oracle : TypesOracle) (pkgs : List Archive)
    (mainPkgPath : String) (minify : Bool) : String :=
  let ds := flatDecls pkgs
  let final := dceLoopWith pop ds (dceFuel ds) (initDce ds)
  let pkgs' := rebuildArchives pkgs final.fs
  "\"use strict\";\n(function() \x7b\n\n"
    ++ removeWhitespace preludeTrimmed minify
    ++ "\n"
    ++ String.join (pkgs'.map (fun pkg => writePkgCode pkg minify))
    ++ interfaceTables oracle (allTypeNames registry pkgs' final.index) minify
    ++ String.join (pkgs'.map (fun pkg => "$packages[\"" ++ pkg.ImportPath ++ "\"].init();\n"))
    ++ "$packages[\"" ++ mainPkgPath ++ "\"].main(function() \x7b\x7d);\n\n\x7d)();\n"

/-- `Compiler.WriteProgramCode` proper (the source's worklist pops the
last entry). -/
def writeProgramCode (registry : String → List TypeName) (oracle : TypesOracle)
    (pkgs : List Archive) (mainPkgPath : String) (minify : Bool) : String :=
  writeProgramCodeWith popBack registry oracle pkgs mainPkgPath minify

/-! ## Archive codec (`MarshalArchive` / `UnmarshalArchive`,
compiler.go:310-328)

The byte-level encoding behind `asn1.Marshal` / `asn1.Unmarshal` lives in
the external `encoding/asn1` package; the spec (§4.5) only requires a
length-prefixed, self-describing binary structured encoding whose field
order and tagging round-trip exactly.  The codec below is modelled from
the spec with that contract: every value is length-prefixed, numbers are
encoded in unary over the byte alphabet `{0, 1}` (digit `1` repeated, `0`
terminated), and fields are concatenated in declaration order. -/

/-- Modelled from the spec (§4.5): number encoding of the archive codec. -/
def encNat (n : Nat) : List Nat := List.replicate n 1 ++ [0]

def decNat : List Nat → Option (Nat × List Nat)
  | [] => none
  | b :: rest =>
    if b = 0 then some (0, rest)
    else
      match decNat rest with
      | none => none
      | some (m, r) => some (m + 1, r)

def encChar (c : Char) : List Nat := encNat c.toNat

def decChar (bytes : List Nat) : Option (Char × List Nat) :=
  match decNat bytes with
  | none => none
  | some (n, rest) => some (Char.ofNat n, rest)

def encListOf {α : Type} (enc : α → List Nat) (l : List α) : List Nat :=
  encNat l.length ++ (l.map enc).flatten

def decListN {α : Type} (dec : List Nat → Option (α × List Nat)) :
    Nat → List Nat → Option (List α × List Nat)
  | 0, rest => some ([], rest)
  | n + 1, rest =>
    match dec rest with
    | none => none
    | some (a, r) =>
      match decListN dec n r with
      | none => none
      | some (as, r') => some (a :: as, r')

def decListOf {α : Type} (dec : List Nat → Option (α × List Nat))
    (bytes : List Nat) : Option (List α × List Nat) :=
  match decNat bytes with
  | none => none
  | some (n, rest) => decListN dec n rest

def encString (s : String) : List Nat := encListOf encChar s.data

def decString (bytes : List Nat) : Option (String × List Nat) :=
  match decListOf decChar bytes with
  | none => none
  | some (cs, rest) => some (⟨cs⟩, rest)

def encPkgImport (pi : PkgImport) : List Nat :=
  encString pi.Path ++ encString pi.VarName

def decPkgImport (bytes : List Nat) : Option (PkgImport × List Nat) :=
  match decString bytes with
  | none => none
  | some (p, r1) =>
    match decString r1 with
    | none => none
    | some (v, r2) => some (⟨p, v⟩, r2)

def encDecl (d : Decl) : List Nat :=
  encString d.Var ++ encString d.BodyCode ++ encString d.InitCode ++
    encListOf encString d.DceFilters ++ encListOf encString d.DceDeps

def decDecl (bytes : List Nat) : Option (Decl × List Nat) :=
  match decString bytes with
  | none => none
  | some (v, r1) =>
    match decString r1 with
    | none => none
    | some (b, r2) =>
      match decString r2 with
      | none => none
      | some (ic, r3) =>
        match decListOf decString r3 with
        | none => none
        | some (fl, r4) =>
          match decListOf decString r4 with
          | none => none
          | some (dp, r5) => some (⟨v, b, ic, fl, dp⟩, r5)

def encArchive (a : Archive) : List Nat :=
  encString a.ImportPath ++ encString a.GcData ++ encListOf encString a.Dependencies ++
    encListOf encPkgImport a.Imports ++ encListOf encDecl a.Declarations ++
    encListOf encString a.Tests ++ encString a.FileSet

def decArchive (bytes : List Nat) : Option (Archive × List Nat) :=
  match decString bytes with
  | none => none
  | some (ip, r1) =>
    match decString r1 with
    | none => none
    | some (gc, r2) =>
      match decListOf decString r2 with
      | none => none
      | some (deps, r3) =>
        match decListOf decPkgImport r3 with
        | none => none
        | some (imps, r4) =>
          match decListOf decDecl r4 with
          | none => none
          | some (decls, r5) =>
            match decListOf decString r5 with
            | none => none
            | some (tests, r6) =>
              match decString r6 with
              | none => none
              | some (fset, r7) => some (⟨ip, gc, deps, imps, decls, tests, fset⟩, r7)

/-- `asn1.Unmarshal(data, &a)` of the call site (compiler.go:312): decode
one Archive, ignoring any trailing bytes (the Go call discards the
returned rest). -/
def decodeArchive (bytes : List Nat) : Option Archive :=
  match decArchive bytes with
  | none => none
  | some (a, _) => some a

/-- `Compiler.MarshalArchive` (compiler.go:326-328); `asn1.Marshal` is the
spec-modelled codec above. -/
def marshalArchive (a : Archive) : List Nat := encArchive a

/-- The two error kinds of `Compiler.UnmarshalArchive` (spec §7). -/
inductive UnmarshalErr where
  | decodeError
  | resolutionError
deriving DecidableEq

/-- `Compiler.UnmarshalArchive` (compiler.go:310-324), returning the Go
pair `(archive, error)`.  `asn1.Unmarshal` is the spec-modelled codec
above; `gcimporter.ImportData` — which, modelled from the spec (§4.5),
resolves the type-metadata blob against the registry of already-loaded
packages and fails when a referenced dependency package is not registered
— is rendered as the check that every dependency path of the decoded
archive is in `registry`.  Both failure paths return `nil, err` as in the
source; the registry insertion side effect is not modelled. -/
def unmarshalArchive (registry : List String) (data : List Nat) :
    Option Archive × Option UnmarshalErr :=
  match decodeArchive data with
  | none => (none, some .decodeError)
  | some a =>
    if ∀ dep ∈ a.Dependencies, dep ∈ registry then (some a, none)
    else (none, some .resolutionError)

/-! ### Codec round-trip -/

theorem decNat_enc (n : Nat) (rest : List Nat) :
    decNat (encNat n ++ rest) = some (n, rest) := by
  induction n with
  | zero => rfl
  | succ n ih =>
    rw [encNat, List.replicate_succ, List.cons_append, List.cons_append, decNat]
    rw [if_neg (by omega)]
    rw [show List.replicate n 1 ++ [0] ++ rest = encNat n ++ rest from rfl, ih]

theorem decChar_enc (c : Char) (rest : List Nat) :
    decChar (encChar c ++ rest) = some (c, rest) := by
  simp only [decChar, encChar, decNat_enc, Char.ofNat_toNat]

theorem decListN_enc {α : Type} (enc : α → List Nat)
    (dec : List Nat → Option (α × List Nat))
    (h : ∀ (a : α) (r : List Nat), dec (enc a ++ r) = some (a, r)) (l : List α) :
    ∀ rest : List Nat, decListN dec l.length ((l.map enc).flatten ++ rest) = some (l, rest) := by
  induction l with
  | nil => intro rest; rfl
  | cons a l ih =>
    intro rest
    simp only [List.length_cons, List.map_cons, List.flatten_cons, List.append_assoc,
      decListN, h, ih]

theorem decListOf_enc {α : Type} (enc : α → List Nat)
    (dec : List Nat → Option (α × List Nat))
    (h : ∀ (a : α) (r : List Nat), dec (enc a ++ r) = some (a, r)) (l : List α)
    (rest : List Nat) : decListOf dec (encListOf enc l ++ rest) = some (l, rest) := by
  simp only [decListOf, encListOf, List.append_assoc, decNat_enc,
    decListN_enc enc dec h l rest]

theorem decString_enc (s : String) (rest : List Nat) :
    decString (encString s ++ rest) = some (s, rest) := by
  simp only [decString, encString, decListOf_enc encChar decChar decChar_enc]

theorem decPkgImport_enc (pi : PkgImport) (rest : List Nat) :
    decPkgImport (encPkgImport pi ++ rest) = some (pi, rest) := by
  simp only [decPkgImport, encPkgImport, List.append_assoc, decString_enc]

theorem decDecl_enc (d : Decl) (rest : List Nat) :
    decDecl (encDecl d ++ rest) = some (d, rest) := by
  simp only [decDecl, encDecl, List.append_assoc, decString_enc,
    decListOf_enc encString decString decString_enc]

theorem decArchive_enc (a : Archive) (rest : List Nat) :
    decArchive (encArchive a ++ rest) = some (a, rest) := by
  simp only [decArchive, encArchive, List.append_assoc, decString_enc,
    decListOf_enc encString decString decString_enc,
    decListOf_enc encPkgImport decPkgImport decPkgImport_enc,
    decListOf_enc encDecl decDecl decDecl_enc]

theorem decodeArchive_marshal (a : Archive) :
    decodeArchive (marshalArchive a) = some a := by
  have h := decArchive_enc a []
  rw [List.append_nil] at h
  rw [decodeArchive, marshalArchive, h]

/-! ### The byte-wise string order and `sortedDedup` -/

theorem char_toNat_inj {a b : Char} (h : a.toNat = b.toNat) : a = b := by
  rw [← Char.ofNat_toNat a, ← Char.ofNat_toNat b, h]

theorem bytesLe_cons_iff (x y : Char) (as bs : List Char) :
    bytesLe (x :: as) (y :: bs) = true ↔
      x.toNat < y.toNat ∨ (x.toNat = y.toNat ∧ bytesLe as bs = true) := by
  rw [bytesLe]
  split_ifs with h1 h2
  · simp [h1]
  · constructor
    · intro h
      simp at h
    · rintro (h | ⟨h, _⟩) <;> omega
  · have hxy : x.toNat = y.toNat := by omega
    constructor
    · intro h
      exact Or.inr ⟨hxy, h⟩
    · rintro (h | ⟨_, h⟩)
      · omega
      · exact h

theorem bytesLe_total : ∀ a b : List Char, bytesLe a b = true ∨ bytesLe b a = true := by
  intro a
  induction a with
  | nil => intro b; left; rfl
  | cons x as ih =>
    intro b
    cases b with
    | nil => right; rfl
    | cons y bs =>
      rw [bytesLe_cons_iff, bytesLe_cons_iff]
      rcases Nat.lt_trichotomy x.toNat y.toNat with h | h | h
      · exact Or.inl (Or.inl h)
      · rcases ih bs with h2 | h2
        · exact Or.inl (Or.inr ⟨h, h2⟩)
        · exact Or.inr (Or.inr ⟨h.symm, h2⟩)
      · exact Or.inr (Or.inl h)

theorem bytesLe_trans : ∀ a b c : List Char,
    bytesLe a b = true → bytesLe b c = true → bytesLe a c = true := by
  intro a
  induction a with
  | nil => intro b c _ _; rfl
  | cons x as ih =>
    intro b c hab hbc
    cases b with
    | nil => rw [bytesLe] at hab; simp at hab
    | cons y bs =>
      cases c with
      | nil => rw [bytesLe] at hbc; simp at hbc
      | cons z cs =>
        rw [bytesLe_cons_iff] at hab hbc ⊢
        rcases hab with hab | ⟨hab, hab2⟩
        · rcases hbc with hbc | ⟨hbc, _⟩
          · exact Or.inl (by omega)
          · exact Or.inl (by omega)
        · rcases hbc with hbc | ⟨hbc, hbc2⟩
          · exact Or.inl (by omega)
          · exact Or.inr ⟨by omega, ih bs cs hab2 hbc2⟩

theorem bytesLe_antisymm : ∀ a b : List Char,
    bytesLe a b = true → bytesLe b a = true → a = b := by
  intro a
  induction a with
  | nil =>
    intro b _ hba
    cases b with
    | nil => rfl
    | cons y bs => rw [bytesLe] at hba; simp at hba
  | cons x as ih =>
    intro b hab hba
    cases b with
    | nil => rw [bytesLe] at hab; simp at hab
    | cons y bs =>
      rw [bytesLe_cons_iff] at hab hba
      rcases hab with hab | ⟨hab, hab2⟩
      · rcases hba with hba | ⟨hba, _⟩ <;> omega
      · rcases hba with hba | ⟨hba, hba2⟩
        · omega
        · rw [char_toNat_inj hab, ih bs hab2 hba2]

/-- The byte order as a relation. -/
def StrLeRel (a b : String) : Prop := strLe a b = true

instance : DecidableRel StrLeRel := fun a b => instDecidableEqBool (strLe a b) true

instance : IsTotal String StrLeRel :=
  ⟨fun a b => bytesLe_total a.data b.data⟩

instance : IsTrans String StrLeRel :=
  ⟨fun a b c => bytesLe_trans a.data b.data c.data⟩

instance : IsAntisymm String StrLeRel :=
  ⟨fun a b hab hba => String.ext (bytesLe_antisymm a.data b.data hab hba)⟩

theorem sortedDedup_eq (l : List String) :
    sortedDedup l = List.insertionSort StrLeRel l.dedup := rfl

theorem sortedDedup_sorted (l : List String) : List.Sorted StrLeRel (sortedDedup l) :=
  List.sorted_insertionSort StrLeRel l.dedup

theorem sortedDedup_nodup (l : List String) : (sortedDedup l).Nodup :=
  (List.perm_insertionSort StrLeRel l.dedup).nodup_iff.mpr (List.nodup_dedup l)

theorem mem_sortedDedup {a : String} {l : List String} :
    a ∈ sortedDedup l ↔ a ∈ l :=
  ((List.perm_insertionSort StrLeRel l.dedup).mem_iff).trans (List.mem_dedup)

/-- Two permuted collections produce the same sorted deduplicated list:
the Go `map[string]bool` iteration order is irrelevant. -/
theorem sortedDedup_perm_eq {l₁ l₂ : List String} (h : l₁.Perm l₂) :
    sortedDedup l₁ = sortedDedup l₂ :=
  List.eq_of_perm_of_sorted
    (((List.perm_insertionSort StrLeRel l₁.dedup).trans h.dedup).trans
      (List.perm_insertionSort StrLeRel l₂.dedup).symm)
    (sortedDedup_sorted l₁) (sortedDedup_sorted l₂)

/-! ### Output congruence: the emitted bytes depend on the filter sets
only through their emptiness, and on the final index only through key
membership -/

theorem getD_take {α : Type} (l : List α) (n k : Nat) (d : α) :
    (l.take n).getD k d = if k < n then l.getD k d else d := by
  rw [List.getD_eq_getElem?_getD, List.getElem?_take]
  by_cases h : k < n
  · rw [if_pos h, if_pos h, List.getD_eq_getElem?_getD]
  · rw [if_neg h, if_neg h]
    rfl

theorem getD_drop {α : Type} (l : List α) (n k : Nat) (d : α) :
    (l.drop n).getD k d = l.getD (n + k) d := by
  rw [List.getD_eq_getElem?_getD, List.getElem?_drop, ← List.getD_eq_getElem?_getD]

theorem getD_of_length_le {α : Type} (l : List α) (k : Nat) (d : α)
    (h : l.length ≤ k) : l.getD k d = d := by
  rw [List.getD_eq_getElem?_getD, List.getElem?_eq_none h]
  rfl

theorem setDeclFilters_congr :
    ∀ (base : List Decl) (f1 f2 : List (List String)), f1.length = f2.length →
    (∀ k, f1.getD k [] = [] ↔ f2.getD k [] = []) →
    ((setDeclFilters base f1).filter
        (fun d => decide (d.DceFilters = [] ∧ d.Var ≠ ""))).map (fun d => d.Var) =
      ((setDeclFilters base f2).filter
        (fun d => decide (d.DceFilters = [] ∧ d.Var ≠ ""))).map (fun d => d.Var) ∧
    ((setDeclFilters base f1).filter (fun d => decide (d.DceFilters = []))).map
        (fun d => d.BodyCode) =
      ((setDeclFilters base f2).filter (fun d => decide (d.DceFilters = []))).map
        (fun d => d.BodyCode) ∧
    ((setDeclFilters base f1).filter (fun d => decide (d.DceFilters = []))).map
        (fun d => d.InitCode) =
      ((setDeclFilters base f2).filter (fun d => decide (d.DceFilters = []))).map
        (fun d => d.InitCode) := by
  intro base
  induction base with
  | nil => intro f1 f2 _ _; exact ⟨rfl, rfl, rfl⟩
  | cons d rest ih =>
    intro f1 f2 hlen hpt
    cases f1 with
    | nil =>
      cases f2 with
      | nil => exact ⟨rfl, rfl, rfl⟩
      | cons x2 t2 => simp at hlen
    | cons x1 t1 =>
      cases f2 with
      | nil => simp at hlen
      | cons x2 t2 =>
        have hhd : x1 = [] ↔ x2 = [] := by
          have := hpt 0
          simpa using this
        have htl : ∀ k, t1.getD k [] = [] ↔ t2.getD k [] = [] := by
          intro k
          have := hpt (k + 1)
          simpa [List.getD_cons_succ] using this
        have hlen' : t1.length = t2.length := by
          simp at hlen
          exact hlen
        obtain ⟨ihV, ihB, ihI⟩ := ih t1 t2 hlen' htl
        rw [setDeclFilters, setDeclFilters]
        simp only [List.headD_cons, List.tail_cons]
        refine ⟨?_, ?_, ?_⟩
        · rw [List.filter_cons, List.filter_cons]
          have hdec : decide (({ d with DceFilters := x1 } : Decl).DceFilters = [] ∧
              ({ d with DceFilters := x1 } : Decl).Var ≠ "") =
              decide (({ d with DceFilters := x2 } : Decl).DceFilters = [] ∧
                ({ d with DceFilters := x2 } : Decl).Var ≠ "") := by
            rw [decide_eq_decide]
            constructor
            · rintro ⟨h1, h2⟩; exact ⟨hhd.mp h1, h2⟩
            · rintro ⟨h1, h2⟩; exact ⟨hhd.mpr h1, h2⟩
          rw [← hdec]
          by_cases hp : decide (({ d with DceFilters := x1 } : Decl).DceFilters = [] ∧
              ({ d with DceFilters := x1 } : Decl).Var ≠ "") = true
          · rw [if_pos hp, if_pos hp, List.map_cons, List.map_cons, ihV]
          · rw [if_neg hp, if_neg hp, ihV]
        · rw [List.filter_cons, List.filter_cons]
          have hdec : decide (({ d with DceFilters := x1 } : Decl).DceFilters = []) =
              decide (({ d with DceFilters := x2 } : Decl).DceFilters = []) := by
            rw [decide_eq_decide]
            exact hhd
          rw [← hdec]
          by_cases hp : decide (({ d with DceFilters := x1 } : Decl).DceFilters = []) = true
          · rw [if_pos hp, if_pos hp, List.map_cons, List.map_cons, ihB]
          · rw [if_neg hp, if_neg hp, ihB]
        · rw [List.filter_cons, List.filter_cons]
          have hdec : decide (({ d with DceFilters := x1 } : Decl).DceFilters = []) =
              decide (({ d with DceFilters := x2 } : Decl).DceFilters = []) := by
            rw [decide_eq_decide]
            exact hhd
          rw [← hdec]
          by_cases hp : decide (({ d with DceFilters := x1 } : Decl).DceFilters = []) = true
          · rw [if_pos hp, if_pos hp, List.map_cons, List.map_cons, ihI]
          · rw [if_neg hp, if_neg hp, ihI]

theorem writePkgCode_decl_congr (a : Archive) (l1 l2 : List Decl) (minify : Bool)
    (hV : (l1.filter (fun d => decide (d.DceFilters = [] ∧ d.Var ≠ ""))).map
        (fun d => d.Var) =
      (l2.filter (fun d => decide (d.DceFilters = [] ∧ d.Var ≠ ""))).map (fun d => d.Var))
    (hB : (l1.filter (fun d => decide (d.DceFilters = []))).map (fun d => d.BodyCode) =
      (l2.filter (fun d => decide (d.DceFilters = []))).map (fun d => d.BodyCode))
    (hI : (l1.filter (fun d => decide (d.DceFilters = []))).map (fun d => d.InitCode) =
      (l2.filter (fun d => decide (d.DceFilters = []))).map (fun d => d.InitCode)) :
    writePkgCode { a with Declarations := l1 } minify =
      writePkgCode { a with Declarations := l2 } minify := by
  rw [writePkgCode, writePkgCode]
  simp only
  rw [hV, hB, hI]

theorem rebuildArchives_importPath : ∀ (pkgs : List Archive) (fs : List (List String)),
    (rebuildArchives pkgs fs).map (fun a => a.ImportPath) =
      pkgs.map (fun a => a.ImportPath) := by
  intro pkgs
  induction pkgs with
  | nil => intro fs; rfl
  | cons a rest ih =>
    intro fs
    rw [rebuildArchives, List.map_cons, List.map_cons, ih]

theorem rebuildArchives_congr (minify : Bool) :
    ∀ (pkgs : List Archive) (f1 f2 : List (List String)), f1.length = f2.length →
    (∀ k, f1.getD k [] = [] ↔ f2.getD k [] = []) →
    (rebuildArchives pkgs f1).map (fun a => writePkgCode a minify) =
      (rebuildArchives pkgs f2).map (fun a => writePkgCode a minify) := by
  intro pkgs
  induction pkgs with
  | nil => intro f1 f2 _ _; rfl
  | cons a rest ih =>
    intro f1 f2 hlen hpt
    rw [rebuildArchives, rebuildArchives, List.map_cons, List.map_cons]
    have htake : ∀ k, (f1.take a.Declarations.length).getD k [] = [] ↔
        (f2.take a.Declarations.length).getD k [] = [] := by
      intro k
      rw [getD_take, getD_take]
      by_cases hk : k < a.Declarations.length
      · rw [if_pos hk, if_pos hk]
        exact hpt k
      · rw [if_neg hk, if_neg hk]
    have htakelen : (f1.take a.Declarations.length).length =
        (f2.take a.Declarations.length).length := by
      rw [List.length_take, List.length_take, hlen]
    have hdrop : ∀ k, (f1.drop a.Declarations.length).getD k [] = [] ↔
        (f2.drop a.Declarations.length).getD k [] = [] := by
      intro k
      rw [getD_drop, getD_drop]
      exact hpt _
    have hdroplen : (f1.drop a.Declarations.length).length =
        (f2.drop a.Declarations.length).length := by
      rw [List.length_drop, List.length_drop, hlen]
    obtain ⟨hV, hB, hI⟩ := setDeclFilters_congr a.Declarations _ _ htakelen htake
    rw [writePkgCode_decl_congr a _ _ minify hV hB hI, ih _ _ hdroplen hdrop]

theorem allTypeNames_congr (registry : String → List TypeName) :
    ∀ (pkgs1 pkgs2 : List Archive) (idx1 idx2 : List (String × List Nat)),
    pkgs1.map (fun a => a.ImportPath) = pkgs2.map (fun a => a.ImportPath) →
    (∀ o, containsKey idx1 o = containsKey idx2 o) →
    allTypeNames registry pkgs1 idx1 = allTypeNames registry pkgs2 idx2 := by
  intro pkgs1
  induction pkgs1 with
  | nil =>
    intro pkgs2 idx1 idx2 hmap _
    cases pkgs2 with
    | nil => rfl
    | cons b rest => simp at hmap
  | cons a rest ih =>
    intro pkgs2 idx1 idx2 hmap hidx
    cases pkgs2 with
    | nil => simp at hmap
    | cons b rest2 =>
      rw [List.map_cons, List.map_cons, List.cons.injEq] at hmap
      obtain ⟨hip, hmap'⟩ := hmap
      have ihtail := ih rest2 idx1 idx2 hmap' hidx
      rw [allTypeNames, allTypeNames] at *
      rw [List.cons.injEq] at ihtail ⊢
      refine ⟨rfl, ?_⟩
      rw [List.flatMap_cons, List.flatMap_cons, ihtail.2, hip]
      congr 1
      apply List.filter_congr
      intro tn _
      rw [hidx]

theorem dce_fs_emptiness_eq {pkgs : List Archive} (hcf : ColonFree (flatDecls pkgs)) :
    ∀ k, ((runDce (flatDecls pkgs)).fs.getD k [] = [] ↔
      (runDceFifo (flatDecls pkgs)).fs.getD k [] = []) := by
  intro k
  by_cases hk : k < (flatDecls pkgs).length
  · rw [show runDce (flatDecls pkgs) =
        dceLoopWith popBack (flatDecls pkgs) (dceFuel (flatDecls pkgs))
          (initDce (flatDecls pkgs)) from rfl,
      show runDceFifo (flatDecls pkgs) =
        dceLoopWith popFront (flatDecls pkgs) (dceFuel (flatDecls pkgs))
          (initDce (flatDecls pkgs)) from rfl,
      dce_final_fs_iff hcf popBack_spec hk, dce_final_fs_iff hcf popFront_spec hk]
  · have h1 : (runDce (flatDecls pkgs)).fs.length = (flatDecls pkgs).length :=
      (dceLoop_final hcf popBack_spec).1.hlen
    have h2 : (runDceFifo (flatDecls pkgs)).fs.length = (flatDecls pkgs).length :=
      (dceLoop_final hcf popFront_spec).1.hlen
    rw [getD_of_length_le _ _ _ (by omega), getD_of_length_le _ _ _ (by omega)]

theorem dce_fs_length_eq {pkgs : List Archive} (hcf : ColonFree (flatDecls pkgs)) :
    (runDce (flatDecls pkgs)).fs.length = (runDceFifo (flatDecls pkgs)).fs.length := by
  have h1 : (runDce (flatDecls pkgs)).fs.length = (flatDecls pkgs).length :=
    (dceLoop_final hcf popBack_spec).1.hlen
  have h2 : (runDceFifo (flatDecls pkgs)).fs.length = (flatDecls pkgs).length :=
    (dceLoop_final hcf popFront_spec).1.hlen
  omega

theorem dce_keys_eq {pkgs : List Archive} (hcf : ColonFree (flatDecls pkgs)) :
    ∀ o, containsKey (runDce (flatDecls pkgs)).index o =
      containsKey (runDceFifo (flatDecls pkgs)).index o := by
  intro o
  have h1 := dce_final_containsKey_iff hcf popBack_spec o
  have h2 := dce_final_containsKey_iff hcf popFront_spec o
  by_cases hp : containsKey (initDce (flatDecls pkgs)).index o = true ∧
      ¬∃ j, j < (flatDecls pkgs).length ∧ Live (flatDecls pkgs) j ∧
        o ∈ dDeps (flatDecls pkgs) j
  · rw [show runDce (flatDecls pkgs) =
        dceLoopWith popBack (flatDecls pkgs) (dceFuel (flatDecls pkgs))
          (initDce (flatDecls pkgs)) from rfl,
      show runDceFifo (flatDecls pkgs) =
        dceLoopWith popFront (flatDecls pkgs) (dceFuel (flatDecls pkgs))
          (initDce (flatDecls pkgs)) from rfl,
      h1.mpr hp, h2.mpr hp]
  · have hb1 : containsKey (runDce (flatDecls pkgs)).index o ≠ true := fun h => hp (h1.mp h)
    have hb2 : containsKey (runDceFifo (flatDecls pkgs)).index o ≠ true := fun h => hp (h2.mp h)
    cases hb1' : containsKey (runDce (flatDecls pkgs)).index o with
    | true => exact absurd hb1' hb1
    | false =>
      cases hb2' : containsKey (runDceFifo (flatDecls pkgs)).index o with
      | true => exact absurd hb2' hb2
      | false => rfl

/-- Worklist-order irrelevance of the whole emitted program. -/
theorem writeProgramCode_pop_eq (registry : String → List TypeName) (oracle : TypesOracle)
    {pkgs : List Archive} (mainPkgPath : String) (minify : Bool)
    (hcf : ColonFree (flatDecls pkgs)) :
    writeProgramCodeWith popBack registry oracle pkgs mainPkgPath minify =
      writeProgramCodeWith popFront registry oracle pkgs mainPkgPath minify := by
  have hpk := rebuildArchives_congr minify pkgs _ _ (dce_fs_length_eq hcf)
    (dce_fs_emptiness_eq hcf)
  have hip1 := rebuildArchives_importPath pkgs (runDce (flatDecls pkgs)).fs
  have hip2 := rebuildArchives_importPath pkgs (runDceFifo (flatDecls pkgs)).fs
  have hatn := allTypeNames_congr registry
    (rebuildArchives pkgs (runDce (flatDecls pkgs)).fs)
    (rebuildArchives pkgs (runDceFifo (flatDecls pkgs)).fs)
    (runDce (flatDecls pkgs)).index (runDceFifo (flatDecls pkgs)).index
    (hip1.trans hip2.symm) (dce_keys_eq hcf)
  have hinit :
      (rebuildArchives pkgs (runDce (flatDecls pkgs)).fs).map
          (fun pkg => "$packages[\"" ++ pkg.ImportPath ++ "\"].init();\n") =
        (rebuildArchives pkgs (runDceFifo (flatDecls pkgs)).fs).map
          (fun pkg => "$packages[\"" ++ pkg.ImportPath ++ "\"].init();\n") := by
    have e1 : (rebuildArchives pkgs (runDce (flatDecls pkgs)).fs).map
        (fun pkg => "$packages[\"" ++ pkg.ImportPath ++ "\"].init();\n") =
        ((rebuildArchives pkgs (runDce (flatDecls pkgs)).fs).map
          (fun a => a.ImportPath)).map (fun s => "$packages[\"" ++ s ++ "\"].init();\n") := by
      rw [List.map_map]
      rfl
    have e2 : (rebuildArchives pkgs (runDceFifo (flatDecls pkgs)).fs).map
        (fun pkg => "$packages[\"" ++ pkg.ImportPath ++ "\"].init();\n") =
        ((rebuildArchives pkgs (runDceFifo (flatDecls pkgs)).fs).map
          (fun a => a.ImportPath)).map (fun s => "$packages[\"" ++ s ++ "\"].init();\n") := by
      rw [List.map_map]
      rfl
    rw [e1, e2, hip1, hip2]
  simp only [writeProgramCodeWith]
  rw [show dceLoopWith popBack (flatDecls pkgs) (dceFuel (flatDecls pkgs))
      (initDce (flatDecls pkgs)) = runDce (flatDecls pkgs) from rfl,
    show dceLoopWith popFront (flatDecls pkgs) (dceFuel (flatDecls pkgs))
      (initDce (flatDecls pkgs)) = runDceFifo (flatDecls pkgs) from rfl]
  rw [hpk, hatn, hinit]

instance instDecidableCookieWF : (p : List Nat) → Decidable (CookieWF p)
  | [] => isTrue .nil
  | b :: rest =>
    if hb : b = 8 then
      match rest with
      | c0 :: c1 :: c2 :: c3 :: rest' =>
        match instDecidableCookieWF rest' with
        | isTrue h => isTrue (by subst hb; exact .cookie _ _ _ _ _ h)
        | isFalse h =>
          isFalse (by subst hb; exact fun hc => h ((cookieWF_cookie_iff _ _ _ _ _).mp hc))
      | [] => isFalse (by subst hb; exact cookieWF_short [] (by simp))
      | [a] => isFalse (by subst hb; exact cookieWF_short [a] (by simp))
      | [a, a2] => isFalse (by subst hb; exact cookieWF_short [a, a2] (by simp))
      | [a, a2, a3] => isFalse (by subst hb; exact cookieWF_short [a, a2, a3] (by simp))
    else
      match instDecidableCookieWF rest with
      | isTrue h => isTrue (.ord _ _ hb h)
      | isFalse h => isFalse (fun hc => h ((cookieWF_cons_ne hb).mp hc))

/-! ### String.join over conditional pieces -/

theorem string_foldl_append (l : List String) : ∀ a : String,
    l.foldl (fun r s => r ++ s) a = a ++ l.foldl (fun r s => r ++ s) "" := by
  induction l with
  | nil => intro a; simp [String.append_empty]
  | cons s l ih =>
    intro a
    simp only [List.foldl_cons]
    rw [ih (a ++ s), ih ("" ++ s), String.empty_append, String.append_assoc]

theorem string_join_cons (s : String) (l : List String) :
    String.join (s :: l) = s ++ String.join l := by
  simp only [String.join, List.foldl_cons]
  rw [string_foldl_append l ("" ++ s), String.empty_append]

/-- Emitting a piece for exactly the entries satisfying `p` (the Go loop
skips the others with `continue`) is emitting over the filtered list. -/
theorem join_ite_filter {α : Type} (p : α → Bool) (f : α → String) (l : List α) :
    String.join (l.map fun a => if p a then f a else "") =
      String.join ((l.filter p).map f) := by
  induction l with
  | nil => rfl
  | cons a l ih =>
    by_cases hp : p a
    · rw [List.map_cons, List.filter_cons, if_pos hp, if_pos hp, List.map_cons,
        string_join_cons, string_join_cons, ih]
    · rw [List.map_cons, List.filter_cons, if_neg hp, string_join_cons,
        if_neg (by simpa using hp), String.empty_append, ih]

/-! ### Membership in the implementor-reference collection -/

/-- Exactly which reference strings the loop at compiler.go:231-251
collects for an interface `t`: one per candidate type `u` that is not
itself an interface, in value form when `u` is assignable to `t` and in
the kind-dependent pointer form when a pointer to `u` is assignable. -/
theorem mem_implementorRefs {oracle : TypesOracle} {tns : List TypeName} {t : TypeName}
    {x : String} :
    x ∈ implementorRefs oracle tns t ↔
      ∃ u ∈ tns, (∀ e, u.kind ≠ UnderlyingKind.interface e) ∧
        ((oracle.assignable u t = true ∧ x = valueRef u) ∨
          (oracle.ptrAssignable u t = true ∧
            x = if u.kind = UnderlyingKind.structKind then valueRef u ++ ".Ptr"
              else "$ptrType(" ++ valueRef u ++ ")")) := by
  rw [implementorRefs, List.mem_flatMap]
  constructor
  · rintro ⟨u, hu, hx⟩
    refine ⟨u, hu, ?_⟩
    cases hk : u.kind with
    | interface e => rw [hk] at hx; simp at hx
    | structKind =>
      rw [hk] at hx
      refine ⟨fun e => by simp, ?_⟩
      rw [List.mem_append] at hx
      rcases hx with hx | hx
      · by_cases ha : oracle.assignable u t
        · rw [if_pos ha] at hx
          simp at hx
          exact Or.inl ⟨ha, hx⟩
        · rw [if_neg ha] at hx
          simp at hx
      · by_cases hb : oracle.ptrAssignable u t
        · rw [if_pos hb] at hx
          simp at hx
          rw [if_pos rfl]
          exact Or.inr ⟨hb, hx⟩
        · rw [if_neg hb] at hx
          simp at hx
    | other =>
      rw [hk] at hx
      refine ⟨fun e => by simp, ?_⟩
      rw [List.mem_append] at hx
      rcases hx with hx | hx
      · by_cases ha : oracle.assignable u t
        · rw [if_pos ha] at hx
          simp at hx
          exact Or.inl ⟨ha, hx⟩
        · rw [if_neg ha] at hx
          simp at hx
      · by_cases hb : oracle.ptrAssignable u t
        · rw [if_pos hb] at hx
          simp at hx
          rw [if_neg (by simp)]
          exact Or.inr ⟨hb, hx⟩
        · rw [if_neg hb] at hx
          simp at hx
  · rintro ⟨u, hu, hni, hx⟩
    refine ⟨u, hu, ?_⟩
    cases hk : u.kind with
    | interface e => exact absurd hk (hni e)
    | structKind =>
      rw [if_pos hk] at hx
      rcases hx with ⟨ha, rfl⟩ | ⟨hb, rfl⟩
      · rw [List.mem_append, if_pos ha]
        exact Or.inl (by simp)
      · rw [List.mem_append, if_pos hb]
        exact Or.inr (by simp)
    | other =>
      rw [if_neg (by rw [hk]; simp)] at hx
      rcases hx with ⟨ha, rfl⟩ | ⟨hb, rfl⟩
      · rw [List.mem_append, if_pos ha]
        exact Or.inl (by simp)
      · rw [List.mem_append, if_pos hb]
        exact Or.inr (by simp)

/-! ### A spec-side rendering of WritePkgCode -/

/-- The live declarations of a list: those whose filter set is empty. -/
def liveDecls (decls : List Decl) : List Decl :=
  decls.filter fun d => decide (d.DceFilters = [])

/-- The claim C7 wording of the per-package emission, to be compared with
the source-translated `writePkgCode`: one combined variable statement
listing the empty package-exports binding, one binding per import in the
order of the import list, and the non-empty Var of every live declaration in
declaration order; then the BodyCode of every live declaration in
declaration order; then the init routine with the InitCode of every live
declaration in the same order, returning the exports record. -/
def writePkgCodeSpec (pkg : Archive) : String :=
  "$packages[\"" ++ pkg.ImportPath ++ "\"] = (function() \x7b\n"
    ++ "\tvar " ++
      joinComma ("$pkg = \x7b\x7d" ::
        pkg.Imports.map (fun imp => imp.VarName ++ " = $packages[\"" ++ imp.Path ++ "\"]") ++
        ((liveDecls pkg.Declarations).filter (fun d => decide (d.Var ≠ ""))).map
          (fun d => d.Var)) ++ ";\n"
    ++ String.join ((liveDecls pkg.Declarations).map (fun d => d.BodyCode))
    ++ "\t$pkg.init = function() \x7b\n"
    ++ String.join ((liveDecls pkg.Declarations).map (fun d => d.InitCode))
    ++ "\t\x7d;\n\treturn $pkg;\n\x7d)();"
    ++ "\n"

theorem filter_and_split (l : List Decl) :
    l.filter (fun d => decide (d.DceFilters = [] ∧ d.Var ≠ "")) =
      (l.filter (fun d => decide (d.DceFilters = []))).filter
        (fun d => decide (d.Var ≠ "")) := by
  rw [List.filter_filter]
  apply List.filter_congr
  intro d _
  rw [Bool.decide_and, Bool.and_comm]

/-- The source emission equals the claim wording: the combined variable
statement is always emitted (the exports binding makes the list
non-empty), and restricting to declarations with both empty filters and a
non-empty Var is filtering the live list by Var. -/
theorem writePkgCode_eq_spec (pkg : Archive) :
    writePkgCode pkg false = writePkgCodeSpec pkg := by
  rw [writePkgCode, writePkgCodeSpec]
  simp only [removeWhitespace, liveDecls]
  rw [filter_and_split]
  split_ifs with h
  · simp only [String.append_assoc]
  · exact absurd (List.cons_ne_nil _ _) h

/-- Inserting a declaration with a non-empty filter set anywhere leaves
the live list unchanged. -/
theorem liveDecls_insert_dead (l1 l2 : List Decl) (d : Decl) (hd : d.DceFilters ≠ []) :
    liveDecls (l1 ++ d :: l2) = liveDecls (l1 ++ l2) := by
  simp only [liveDecls, List.filter_append, List.filter_cons]
  rw [if_neg (by simpa using hd)]

/-! ## The claims -/

/-- C1: the split-invariance the spec demands fails in the code.  The
one-shot write of the bytes 97, 8, 0, 0, 0, 7 (one text byte, then the
sentinel and its 4-byte cookie) forwards the text byte and invokes the
mapping callback once with (1, 1, 7); but the filter keeps no cross-call
cookie buffer, so when the same bytes are split right after the sentinel,
the first call slices past the end of its buffer (modelled `none`, a
runtime panic in Go) instead of buffering the partial cookie. -/
theorem claim_C1 :
    smfWrite true ⟨0, 0⟩ [97, 8, 0, 0, 0, 7] = some (⟨0, 1⟩, [97], [(1, 1, 7)], 6) ∧
      smfWrite true ⟨0, 0⟩ [97, 8] = none :=
  ⟨rfl, rfl⟩

/-- Two declarations of package p: index 0 is initially live (no filters)
and depends on the key p:a; index 1 is guarded by the two filters a and b,
of which only a is ever named by a dependency. -/
def exC2 : List (String × Decl) :=
  [("p", ⟨"", "", "", [], ["p:a"]⟩), ("p", ⟨"", "", "", ["a", "b"], []⟩)]

/-- C2 counterexample: declaration 1 of `exC2` is reachable from the
initially live declaration 0 by one Deps-to-Filters hop, yet its filter
set does not drain (the filter b is never matched), so hop-reachability
does not imply liveness. -/
theorem claim_C2_counterexample :
    dFilters exC2 0 = [] ∧ Relation.ReflTransGen (DepHop exC2) 0 1 ∧
      ¬(runDce exC2).fs.getD 1 [] = [] :=
  ⟨rfl, Relation.ReflTransGen.single (by decide), by decide⟩

/-- C2 (amended): provided no package path or filter name contains a
colon, a declaration is live after DCE (its filter set drained to empty)
exactly when it belongs to the least set closed under the rule that a
declaration qualifies when EVERY one of its filters is matched by a
dependency key of some member; in particular a declaration with initially
empty filters is live.  Reachability via Deps-to-Filters hops is
necessary but not sufficient. -/
theorem claim_C2 {ds : List (String × Decl)} (hcf : ColonFree ds) {i : Nat}
    (hi : i < ds.length) :
    ((runDce ds).fs.getD i [] = [] ↔ Live ds i) ∧ (dFilters ds i = [] → Live ds i) := by
  refine ⟨dce_final_fs_iff hcf popBack_spec hi, fun h => Live_intro ds i hi ?_⟩
  intro f hf
  rw [h] at hf
  exact absurd hf (List.not_mem_nil f)

def exC2W : List (String × Decl) := [("p", ⟨"", "", "", [], []⟩)]

theorem claim_C2_witness :
    ColonFree exC2W ∧ 0 < exC2W.length ∧
      (((runDce exC2W).fs.getD 0 [] = [] ↔ Live exC2W 0) ∧
        (dFilters exC2W 0 = [] → Live exC2W 0)) :=
  ⟨by decide, by decide, claim_C2 (by decide) (by decide)⟩

/-- C3: over a single write whose buffer is well formed (every sentinel
byte carries its full 4-byte cookie), the source filter behaves exactly as
the byte-by-byte contract `specScan`: ordinary bytes are forwarded
verbatim and advance the line/column counters (newline increments line
and resets column, any other byte increments column), sentinel and cookie
bytes are consumed without being forwarded, and with a callback set each
pair records one invocation (line + 1, column, big-endian cookie) at the
point the sentinel is reached; the returned count is the full buffer
length. -/
theorem claim_C3 (cb : Bool) (st : SMFState) (p : List Nat) (hwf : CookieWF p) :
    smfWrite cb st p =
      some ((specScan cb st p).1, (specScan cb st p).2.1, (specScan cb st p).2.2,
        p.length) :=
  smfWrite_eq_specScan cb st p hwf

def pC3 : List Nat := [104, 10, 8, 0, 0, 1, 4, 105]

theorem claim_C3_witness :
    CookieWF pC3 ∧
      smfWrite true ⟨0, 0⟩ pC3 =
        some ((specScan true ⟨0, 0⟩ pC3).1, (specScan true ⟨0, 0⟩ pC3).2.1,
          (specScan true ⟨0, 0⟩ pC3).2.2, pC3.length) :=
  ⟨by decide, claim_C3 true ⟨0, 0⟩ pC3 (by decide)⟩

/-- C4: the emitted implementedBy list of any interface is sorted in the
byte-wise string order, has no duplicates, and contains exactly: for each
candidate type that is not itself an interface, its value-form reference
when the type is assignable to the interface, and its kind-dependent
pointer-form reference when a pointer to the type is assignable; types
whose underlying type is an interface contribute nothing. -/
theorem claim_C4 (oracle : TypesOracle) (tns : List TypeName) (t : TypeName) :
    List.Sorted StrLeRel (implementedByList oracle tns t) ∧
      (implementedByList oracle tns t).Nodup ∧
      ∀ x : String, x ∈ implementedByList oracle tns t ↔
        ∃ u ∈ tns, (∀ e, u.kind ≠ UnderlyingKind.interface e) ∧
          ((oracle.assignable u t = true ∧ x = valueRef u) ∨
            (oracle.ptrAssignable u t = true ∧
              x = if u.kind = UnderlyingKind.structKind then valueRef u ++ ".Ptr"
                else "$ptrType(" ++ valueRef u ++ ")")) :=
  ⟨sortedDedup_sorted _, sortedDedup_nodup _,
    fun x => mem_sortedDedup.trans mem_implementorRefs⟩

/-- C5: dispatch tables are emitted exactly for the candidate type names
whose underlying type is a non-empty interface; an interface with zero
methods gets no table; the built-in error interface heads the candidate
set whatever the registry returns, qualifies for a table, and is emitted
under the reserved name $error while every other name uses the
per-package reference. -/
theorem claim_C5 (oracle : TypesOracle) (tns : List TypeName) (minify : Bool)
    (registry : String → List TypeName) (pkgs : List Archive)
    (finalIndex : List (String × List Nat)) :
    interfaceTables oracle tns minify =
        String.join ((tns.filter isTableInterface).map
          (fun t => interfaceLine oracle tns t minify)) ∧
      (∀ t : TypeName, isTableInterface t = true ↔
        t.kind = UnderlyingKind.interface false) ∧
      errorTypeName ∈ allTypeNames registry pkgs finalIndex ∧
      isTableInterface errorTypeName = true ∧
      targetRef errorTypeName = "$error" ∧
      ∀ t : TypeName, t.name ≠ "error" →
        targetRef t = "$packages[\"" ++ t.pkg ++ "\"]." ++ t.name := by
  refine ⟨?_, ?_, ?_, rfl, rfl, ?_⟩
  · rw [interfaceTables]
    exact join_ite_filter isTableInterface (fun t => interfaceLine oracle tns t minify) tns
  · intro t
    rcases t with ⟨p, n, k⟩
    cases k with
    | interface e => cases e <;> simp [isTableInterface]
    | structKind => simp [isTableInterface]
    | other => simp [isTableInterface]
  · rw [allTypeNames]
    exact List.mem_cons_self _ _
  · intro t ht
    rw [targetRef, if_neg ht]

/-- The one-package one-declaration scenario: package main with a single
declaration carrying only a body, no imports, no filters. -/
def scenarioArchive : Archive := ⟨"main", "", [], [], [⟨"", "BODY;\n", "", [], []⟩], [], ""⟩

def scenarioRegistry : String → List TypeName := fun _ => []

def scenarioOracle : TypesOracle := ⟨fun _ _ => false, fun _ _ => false⟩

/-- What the scenario emits, with the interface-table stage left as a
parameter: opening boilerplate and prelude, the one package block with
the body, the tables, one init call, the entry call and closing
boilerplate. -/
def scenarioExpected (tables : String) : String :=
  "\"use strict\";\n(function() \x7b\n\n" ++ preludeTrimmed ++ "\n"
    ++ "$packages[\"main\"] = (function() \x7b\n"
    ++ "\tvar $pkg = \x7b\x7d;\n"
    ++ "BODY;\n"
    ++ "\t$pkg.init = function() \x7b\n"
    ++ "\t\x7d;\n\treturn $pkg;\n\x7d)();"
    ++ "\n"
    ++ tables
    ++ "$packages[\"main\"].init();\n"
    ++ "$packages[\"main\"].main(function() \x7b\x7d);\n\n\x7d)();\n"

set_option maxRecDepth 10000 in
/-- C6 counterexample: the scenario output is NOT prelude, package block,
init call and entry call with nothing else — the interface-table stage
always contributes at least the built-in error table line. -/
theorem claim_C6_counterexample :
    writeProgramCode scenarioRegistry scenarioOracle [scenarioArchive] "main" false ≠
      scenarioExpected "" := by
  decide

set_option maxRecDepth 10000 in
/-- C6 (amended): the scenario output consists of exactly, in order, the
opening boilerplate with the prelude, the one package block with the
declaration body, the line starting $error.implementedBy (the error
interface is unconditionally a table candidate, so this stage is never
empty), one init call, and the entry call with closing boilerplate. -/
theorem claim_C6 :
    writeProgramCode scenarioRegistry scenarioOracle [scenarioArchive] "main" false =
      scenarioExpected "$error.implementedBy = [];\n" := by
  decide

/-- C7: the per-package emission equals its claim wording — one combined
variable statement (exports binding, import bindings in import order,
non-empty Vars of live declarations in declaration order), then live
BodyCodes in declaration order, then the init routine with live InitCodes
in the same order — and a declaration whose filter set is still non-empty
contributes no Var entry, no body and no init code: inserting one
anywhere leaves the output unchanged. -/
theorem claim_C7 (pkg : Archive) (l1 l2 : List Decl) (d : Decl)
    (hd : d.DceFilters ≠ []) :
    writePkgCode pkg false = writePkgCodeSpec pkg ∧
      writePkgCode { pkg with Declarations := l1 ++ d :: l2 } false =
        writePkgCode { pkg with Declarations := l1 ++ l2 } false := by
  refine ⟨writePkgCode_eq_spec pkg, ?_⟩
  rw [writePkgCode_eq_spec, writePkgCode_eq_spec, writePkgCodeSpec, writePkgCodeSpec]
  dsimp only
  rw [liveDecls_insert_dead l1 l2 d hd]

def deadDecl : Decl := ⟨"v", "b;\n", "i;\n", ["f"], []⟩

def pkgC7 : Archive := ⟨"p", "", [], [], [], [], ""⟩

theorem claim_C7_witness :
    deadDecl.DceFilters ≠ [] ∧
      (writePkgCode pkgC7 false = writePkgCodeSpec pkgC7 ∧
        writePkgCode { pkgC7 with Declarations := [] ++ deadDecl :: [] } false =
          writePkgCode { pkgC7 with Declarations := [] ++ ([] : List Decl) } false) :=
  ⟨by decide, claim_C7 pkgC7 [] [] deadDecl (by decide)⟩

/-- C8: with colon-free package paths and filter names, the worklist
outcome does not depend on the pop discipline: the LIFO order of the
source and a FIFO order drain exactly the same filter sets, and the whole
emitted program is byte-identical; independently, the sorted deduplicated
interface-table entries are invariant under permuting the collection
order of the underlying set. -/
theorem claim_C8 (registry : String → List TypeName) (oracle : TypesOracle)
    (pkgs : List Archive) (mainPkgPath : String) (minify : Bool)
    (hcf : ColonFree (flatDecls pkgs)) :
    (∀ i, (runDce (flatDecls pkgs)).fs.getD i [] = [] ↔
        (runDceFifo (flatDecls pkgs)).fs.getD i [] = []) ∧
      writeProgramCodeWith popBack registry oracle pkgs mainPkgPath minify =
        writeProgramCodeWith popFront registry oracle pkgs mainPkgPath minify ∧
      ∀ lA lB : List String, lA.Perm lB → sortedDedup lA = sortedDedup lB :=
  ⟨dce_fs_emptiness_eq hcf,
    writeProgramCode_pop_eq registry oracle mainPkgPath minify hcf,
    fun _ _ h => sortedDedup_perm_eq h⟩

def pkgsC8 : List Archive := [⟨"q", "", [], [], [⟨"v", "b;\n", "i;\n", [], []⟩], [], ""⟩]

theorem claim_C8_witness :
    ColonFree (flatDecls pkgsC8) ∧
      ((∀ i, (runDce (flatDecls pkgsC8)).fs.getD i [] = [] ↔
          (runDceFifo (flatDecls pkgsC8)).fs.getD i [] = []) ∧
        writeProgramCodeWith popBack (fun _ => []) ⟨fun _ _ => false, fun _ _ => false⟩
            pkgsC8 "q" false =
          writeProgramCodeWith popFront (fun _ => []) ⟨fun _ _ => false, fun _ _ => false⟩
            pkgsC8 "q" false ∧
        ∀ lA lB : List String, lA.Perm lB → sortedDedup lA = sortedDedup lB) :=
  ⟨by decide,
    claim_C8 (fun _ => []) ⟨fun _ _ => false, fun _ _ => false⟩ pkgsC8 "q" false (by decide)⟩

/-- C9: unmarshaling the bytes produced by marshaling an archive whose
dependencies are all registered returns that archive field for field,
with no error. -/
theorem claim_C9 (a : Archive) (registry : List String)
    (hreg : ∀ dep ∈ a.Dependencies, dep ∈ registry) :
    unmarshalArchive registry (marshalArchive a) = (some a, none) := by
  simp only [unmarshalArchive, decodeArchive_marshal]
  rw [if_pos hreg]

def aC9 : Archive := ⟨"p", "g", ["d"], [⟨"d", "dv"⟩], [⟨"v", "b;\n", "i;\n", ["f"], ["k"]⟩],
  ["t"], "fs"⟩

theorem claim_C9_witness :
    (∀ dep ∈ aC9.Dependencies, dep ∈ ["d"]) ∧
      unmarshalArchive ["d"] (marshalArchive aC9) = (some aC9, none) :=
  ⟨by decide, claim_C9 aC9 ["d"] (by decide)⟩

/-- C10: unmarshaling yields the decode error exactly when the bytes do
not decode to an archive, the resolution error exactly when they decode
to an archive one of whose dependency paths is not registered, and every
failure returns no archive at all. -/
theorem claim_C10 (registry : List String) (data : List Nat) :
    ((unmarshalArchive registry data).2 = some UnmarshalErr.decodeError ↔
        decodeArchive data = none) ∧
      ((unmarshalArchive registry data).2 = some UnmarshalErr.resolutionError ↔
        ∃ a, decodeArchive data = some a ∧ ¬∀ dep ∈ a.Dependencies, dep ∈ registry) ∧
      ∀ e, (unmarshalArchive registry data).2 = some e →
        (unmarshalArchive registry data).1 = none := by
  cases hd : decodeArchive data with
  | none => simp [unmarshalArchive, hd]
  | some a =>
    by_cases hr : ∀ dep ∈ a.Dependencies, dep ∈ registry
    · simp only [unmarshalArchive, hd]
      rw [if_pos hr]
      simp [hr]
      exact hr
    · simp only [unmarshalArchive, hd]
      rw [if_neg hr]
      push_neg at hr
      simp [hr]

theorem claim_C10_witness :
    (unmarshalArchive [] []).2 = some UnmarshalErr.decodeError ∧
      (unmarshalArchive [] []).1 = none :=
  ⟨(claim_C10 [] []).1.mpr rfl,
    (claim_C10 [] []).2.2 UnmarshalErr.decodeError ((claim_C10 [] []).1.mpr rfl)⟩

end GopherJS
